import Mathlib

/-!
Shallow embedding of the graph-construction core of the `graph-vis`
repository: the introspection parser (`src/parser/parseIntrospection.ts`),
the type-reference resolver (`unwrapType`), the type-node factory
(`src/nodes/createTypeNode.ts`) and the breadth-first graph extractor
(`src/graph/extractGraph.ts`), together with theorems settling the
specification claims about them.

Modelling conventions:
 - TypeScript `T | null` / optional fields become `Option`.
 - JavaScript `Map` and `Set` become association lists / lists used with
   JS semantics (`jsMapGet`, `jsMapSet`); `Map.set` replaces the value at
   an existing key in place, otherwise appends, so insertion order is kept.
 - The JS string-or-default idiom `s || d` (which substitutes `d` for both
   `null` and the empty string, since `""` is falsy) is `jsOrString`.
 - Exceptions become `Except ExtractError`.
 - The `while (queue.length > 0)` loop becomes a fuel-indexed recursion
   `bfs`; the fuel passed by `extractGraph` is proved sufficient
   (`Except.error ExtractError.OutOfFuel` is never returned), so the
   fueled function coincides with the unbounded loop.  The unchecked
   `nodes.get(currentTypeName)!` lookup of the source is modelled by the
   `BfsResult.panicMissing` outcome, likewise proved unreachable.
 - Fields of the introspection records that no code under consideration
   ever reads (`isDeprecated`, `deprecationReason`, `enumValues`,
   `inputFields`, `mutationType`, `subscriptionType`) are omitted from
   the record types; they cannot influence any claim.
-/

namespace GraphVis

/-- The GraphQL type kinds, from `src/parser/types.ts` (`TypeKind`). -/
inductive TypeKind where
  | SCALAR
  | OBJECT
  | INTERFACE
  | UNION
  | ENUM
  | INPUT_OBJECT
  | LIST
  | NON_NULL
deriving DecidableEq, Repr, BEq

/-- A type reference (`IntrospectionTypeRef`): `kind`, nullable `name`,
nullable `ofType`.  A `leaf` is a reference whose `ofType` is null, a
`wrap` one whose `ofType` is present; this avoids a nested
`Option TypeRef` while being in evident bijection with the TS record. -/
inductive TypeRef where
  | leaf (kind : TypeKind) (name : Option String)
  | wrap (kind : TypeKind) (name : Option String) (ofType : TypeRef)
deriving DecidableEq, Repr

/-- A raw introspection field record (`IntrospectionField`). -/
structure IntrospectionField where
  name : String
  description : Option String := none
  type : TypeRef
deriving DecidableEq, Repr

/-- A raw introspection type record (`IntrospectionType`). -/
structure IntrospectionType where
  kind : TypeKind
  name : String
  description : Option String := none
  fields : Option (List IntrospectionField) := none
  interfaces : Option (List TypeRef) := none
  possibleTypes : Option (List TypeRef) := none
deriving DecidableEq, Repr

/-- The schema's `queryType : { name } | null` object. -/
structure QueryTypeRef where
  name : String
deriving DecidableEq, Repr

/-- The `__schema` object; `types` is optional because the parser checks
`!schema.types` at runtime. -/
structure IntrospectionSchema where
  queryType : Option QueryTypeRef := none
  types : Option (List IntrospectionType) := none
deriving DecidableEq, Repr

/-- The introspection document handed to the core (the content of
`introspectionData.data`); `schema` is optional because the parser
checks `!schema`. -/
structure IntrospectionDoc where
  schema : Option IntrospectionSchema := none
deriving DecidableEq, Repr

/-- Result of the parser (`ParsedIntrospection`). -/
structure ParsedIntrospection where
  types : List IntrospectionType
  queryTypeName : Option String
deriving DecidableEq, Repr

/-- The error taxonomy of the core (spec section 7).  The TS code throws
plain `Error`s with distinguishing messages; the three named kinds are
`InvalidInputError`, `NoRootTypeError` and `RootTypeNotFoundError`.
`PanicNodeMissing` models the unchecked `nodes.get(name)!` lookup inside
the traversal loop and `OutOfFuel` the exhaustion of the loop bound of
the embedding; both are proved unreachable. -/
inductive ExtractError where
  | InvalidInputError
  | NoRootTypeError
  | RootTypeNotFoundError (name : String)
  | PanicNodeMissing
  | OutOfFuel
deriving DecidableEq, Repr

/-- JS `String.prototype.startsWith`, modelled on the character list of
the string (Lean's own `String.startsWith` is equivalent but is not
kernel-reducible, which concrete witnesses need). -/
def strStartsWith (s p : String) : Bool := p.data.isPrefixOf s.data

/-- JS `String.prototype.endsWith`, modelled on the character list. -/
def strEndsWith (s p : String) : Bool := p.data.isSuffixOf s.data

/-- The JS string-or-default idiom `s || d` for `s : string | null`:
both `null` and the empty string (falsy) are replaced by the default. -/
def jsOrString (s : Option String) (d : String) : String :=
  match s with
  | none => d
  | some s => if s = "" then d else s

/-- `parseIntrospection` from `src/parser/parseIntrospection.ts`: checks
`!schema || !schema.types`, filters out types whose name starts with
`__`, and reads `schema.queryType?.name || null`. -/
def parseIntrospection (d : IntrospectionDoc) :
    Except ExtractError ParsedIntrospection :=
  match d.schema with
  | none => .error .InvalidInputError
  | some schema =>
    match schema.types with
    | none => .error .InvalidInputError
    | some ts =>
      let types := ts.filter (fun t => !(strStartsWith t.name "__"))
      let queryTypeName : Option String :=
        match schema.queryType with
        | none => none
        | some q => if q.name = "" then none else some q.name
      .ok { types := types, queryTypeName := queryTypeName }

/-- `unwrapType` on a non-null reference: while `kind` is `LIST` or
`NON_NULL` recurse into `ofType` (null `ofType` yields null), otherwise
return `name`. -/
def unwrapTypeRef : TypeRef → Option String
  | .leaf k n => if k = .LIST ∨ k = .NON_NULL then none else n
  | .wrap k n r => if k = .LIST ∨ k = .NON_NULL then unwrapTypeRef r else n

/-- `unwrapType` from `src/parser/parseIntrospection.ts`, including the
`!typeRef` null check. -/
def unwrapType : Option TypeRef → Option String
  | none => none
  | some r => unwrapTypeRef r

/-- The five built-in scalar names (`BUILT_IN_SCALARS`). -/
def BUILT_IN_SCALARS : List String := ["String", "Int", "Float", "Boolean", "ID"]

/-- Simplified field record (`FieldInfo` in `src/nodes/types.ts`). -/
structure FieldInfo where
  name : String
  typeName : String
  description : Option String := none
deriving DecidableEq, Repr

/-- A normalized type node (`TypeNode` in `src/nodes/types.ts`). -/
structure TypeNode where
  name : String
  kind : TypeKind
  isComposite : Bool
  isRelay : Bool
  isBuiltIn : Bool
  fields : Option (List FieldInfo) := none
  interfaces : Option (List String) := none
  possibleTypes : Option (List String) := none
  description : Option String := none
deriving DecidableEq, Repr

/-- `extractFields` from `src/nodes/createTypeNode.ts`: absent or empty
field lists yield `none`; otherwise each field's type reference is
resolved, with `unwrapType(field.type) || 'Unknown'`. -/
def extractFields (typeData : IntrospectionType) : Option (List FieldInfo) :=
  match typeData.fields with
  | none => none
  | some fs =>
    if fs.length = 0 then none
    else some (fs.map (fun field =>
      { name := field.name
        typeName := jsOrString (unwrapTypeRef field.type) "Unknown"
        description := field.description }))

/-- `createTypeNode` from `src/nodes/createTypeNode.ts`.  Note that
`interfaces?.map(unwrapType).filter(≠ null) || undefined` maps an absent
list to `undefined` but keeps a present empty list (an empty array is
truthy in JS). -/
def createTypeNode (typeData : IntrospectionType) : TypeNode :=
  let isRelay :=
    strEndsWith typeData.name "Connection" || strEndsWith typeData.name "Edge" ||
      typeData.name = "PageInfo"
  let isBuiltIn :=
    strStartsWith typeData.name "__" || BUILT_IN_SCALARS.contains typeData.name
  let isComposite :=
    typeData.kind = TypeKind.OBJECT || typeData.kind = TypeKind.INTERFACE ||
      typeData.kind = TypeKind.UNION
  let fields := extractFields typeData
  let interfaces :=
    match typeData.interfaces with
    | none => none
    | some l => some (l.filterMap unwrapTypeRef)
  let possibleTypes :=
    match typeData.possibleTypes with
    | none => none
    | some l => some (l.filterMap unwrapTypeRef)
  { name := typeData.name
    kind := typeData.kind
    isComposite := isComposite
    isRelay := isRelay
    isBuiltIn := isBuiltIn
    fields := fields
    interfaces := interfaces
    possibleTypes := possibleTypes
    description := typeData.description }

/-- The edge kinds (`EdgeType` in `src/graph/types.ts`). -/
inductive EdgeType where
  | FIELD
  | IMPLEMENTS
  | UNION_MEMBER
deriving DecidableEq, Repr, BEq

/-- A graph edge (`Edge` in `src/graph/types.ts`). -/
structure Edge where
  source : String
  target : String
  edgeType : EdgeType
  fieldName : Option String := none
deriving DecidableEq, Repr

/-- The extracted graph (`TypeGraph` in `src/graph/types.ts`); the node
`Map` is an insertion-ordered association list. -/
structure TypeGraph where
  nodes : List (String × TypeNode)
  edges : List Edge
  rootType : TypeNode
deriving DecidableEq, Repr

/-- JS `Map.get`: first (= unique) binding of the key, if any. -/
def jsMapGet {α : Type} : List (String × α) → String → Option α
  | [], _ => none
  | (k', v) :: rest, k => if k' = k then some v else jsMapGet rest k

/-- JS `Map.set`: replace in place if the key is present, else append. -/
def jsMapSet {α : Type} (m : List (String × α)) (k : String) (v : α) :
    List (String × α) :=
  if k ∈ m.map Prod.fst then
    m.map (fun p => if p.1 = k then (k, v) else p)
  else m ++ [(k, v)]

/-- The `typeMap` built by `extractGraph` via
`parsed.types.forEach((type) => typeMap.set(type.name, type))`. -/
def buildTypeMap (ts : List IntrospectionType) :
    List (String × IntrospectionType) :=
  ts.foldl (fun m t => jsMapSet m t.name t) []

/-- The mutable state of the BFS loop of `extractGraph`: the `nodes`
map, the `edges` array, the `visited` set (kept as the insertion-ordered
list of its elements) and the worklist `queue`. -/
structure St where
  nodes : List (String × TypeNode)
  edges : List Edge
  visited : List String
  queue : List String
deriving Repr

/-- One edge-emission step of the loop body of `extractGraph`: push the
edge, then (`if (!visited.has(target))`) look the target up in the type
map and, if a record exists, create its node, mark it visited and
enqueue it. -/
def emit (typeMap : List (String × IntrospectionType)) (source : String)
    (edgeType : EdgeType) (fieldName : Option String) (target : String)
    (st : St) : St :=
  let st1 : St :=
    { st with
      edges := st.edges ++
        [{ source := source, target := target, edgeType := edgeType,
           fieldName := fieldName }] }
  if target ∈ st1.visited then st1
  else
    match jsMapGet typeMap target with
    | some targetTypeData =>
      { st1 with
        nodes := jsMapSet st1.nodes target (createTypeNode targetTypeData)
        visited := st1.visited ++ [target]
        queue := st1.queue ++ [target] }
    | none => st1

/-- The body of one iteration of the BFS loop: for the dequeued node,
emit all FIELD edges (in field order), then all IMPLEMENTS edges, then
all UNION_MEMBER edges, discovering new targets along the way.  The
three `match`es are the `if (currentNode.fields)` (resp. `interfaces`,
`possibleTypes`) guards of the source. -/
def expandNode (typeMap : List (String × IntrospectionType))
    (currentTypeName : String) (currentNode : TypeNode) (st : St) : St :=
  let st1 :=
    match currentNode.fields with
    | none => st
    | some fs =>
      fs.foldl (fun s field =>
        emit typeMap currentTypeName .FIELD (some field.name) field.typeName s) st
  let st2 :=
    match currentNode.interfaces with
    | none => st1
    | some l =>
      l.foldl (fun s interfaceName =>
        emit typeMap currentTypeName .IMPLEMENTS none interfaceName s) st1
  match currentNode.possibleTypes with
  | none => st2
  | some l =>
    l.foldl (fun s memberName =>
      emit typeMap currentTypeName .UNION_MEMBER none memberName s) st2

/-- Outcome of the fueled BFS loop. -/
inductive BfsResult where
  | done (st : St)
  | panicMissing
  | outOfFuel
deriving Repr

/-- The `while (queue.length > 0)` loop of `extractGraph`, indexed by
fuel.  `panicMissing` models the unchecked `nodes.get(currentTypeName)!`
failing; `outOfFuel` the bound running out (both proved unreachable). -/
def bfs (fuel : Nat) (typeMap : List (String × IntrospectionType))
    (st : St) : BfsResult :=
  match fuel with
  | 0 =>
    match st.queue with
    | [] => .done st
    | _ :: _ => .outOfFuel
  | fuel + 1 =>
    match st.queue with
    | [] => .done st
    | currentTypeName :: rest =>
      match jsMapGet st.nodes currentTypeName with
      | none => .panicMissing
      | some currentNode =>
        bfs fuel typeMap
          (expandNode typeMap currentTypeName currentNode
            { st with queue := rest })

/-- The initial traversal state of `extractGraph`: the root node is
added to the node map, marked visited and enqueued. -/
def initSt (rootNode : TypeNode) : St :=
  { nodes := jsMapSet [] rootNode.name rootNode
    edges := []
    visited := [rootNode.name]
    queue := [rootNode.name] }

/-- `extractGraph` from `src/graph/extractGraph.ts`.  The fuel
`2 * typeMap.length + 1` dominates the loop's decreasing measure
(proved below), so the loop always runs to completion. -/
def extractGraph (d : IntrospectionDoc) : Except ExtractError TypeGraph :=
  match parseIntrospection d with
  | .error e => .error e
  | .ok parsed =>
    match parsed.queryTypeName with
    | none => .error .NoRootTypeError
    | some queryTypeName =>
      let typeMap := buildTypeMap parsed.types
      match jsMapGet typeMap queryTypeName with
      | none => .error (.RootTypeNotFoundError queryTypeName)
      | some rootTypeData =>
        let rootNode := createTypeNode rootTypeData
        match bfs (2 * typeMap.length + 1) typeMap (initSt rootNode) with
        | .done st =>
          .ok { nodes := st.nodes, edges := st.edges, rootType := rootNode }
        | .panicMissing => .error .PanicNodeMissing
        | .outOfFuel => .error .OutOfFuel

/-! ### Derived notions used by the theorems -/

instance {ε α : Type} [DecidableEq ε] [DecidableEq α] :
    DecidableEq (Except ε α) := fun a b =>
  match a, b with
  | .ok x, .ok y =>
    if h : x = y then .isTrue (by rw [h])
    else .isFalse (by intro hc; cases hc; exact h rfl)
  | .error x, .error y =>
    if h : x = y then .isTrue (by rw [h])
    else .isFalse (by intro hc; cases hc; exact h rfl)
  | .ok _, .error _ => .isFalse (by intro hc; cases hc)
  | .error _, .ok _ => .isFalse (by intro hc; cases hc)

/-- The type names a normalized node refers to: its fields' resolved
target names, its implemented interfaces and its union members. -/
def refNames (n : TypeNode) : List String :=
  (n.fields.getD []).map (fun f => f.typeName) ++
    n.interfaces.getD [] ++ n.possibleTypes.getD []

/-- The edges one dequeued node contributes, in emission order: its
FIELD edges in field order, then its IMPLEMENTS edges, then its
UNION_MEMBER edges. -/
def edgeListPair (p : String × TypeNode) : List Edge :=
  (p.2.fields.getD []).map (fun f =>
    { source := p.1, target := f.typeName, edgeType := EdgeType.FIELD,
      fieldName := some f.name }) ++
  (p.2.interfaces.getD []).map (fun i =>
    { source := p.1, target := i, edgeType := EdgeType.IMPLEMENTS,
      fieldName := none }) ++
  (p.2.possibleTypes.getD []).map (fun m =>
    { source := p.1, target := m, edgeType := EdgeType.UNION_MEMBER,
      fieldName := none })

/-- One hop along an edge of the edge list. -/
def EdgeStep (es : List Edge) (a b : String) : Prop :=
  ∃ e ∈ es, e.source = a ∧ e.target = b

/-- Reachability along the emitted edges. -/
def EdgeReach (es : List Edge) (root x : String) : Prop :=
  Relation.ReflTransGen (EdgeStep es) root x

/-- One hop of the schema's type-reference graph: from a name that has
a record in the type map to any name its normalized node refers to. -/
def SchemaStep (tm : List (String × IntrospectionType)) (x y : String) : Prop :=
  ∃ r, jsMapGet tm x = some r ∧ y ∈ refNames (createTypeNode r)

/-- The post-filter type list the parser produced for a document
(empty when parsing fails). -/
def parsedTypesOf (d : IntrospectionDoc) : List IntrospectionType :=
  match parseIntrospection d with
  | .ok p => p.types
  | .error _ => []

/-- The name-to-record lookup table `extractGraph` builds for a
document. -/
def typeMapOf (d : IntrospectionDoc) : List (String × IntrospectionType) :=
  buildTypeMap (parsedTypesOf d)

/-- The basic state invariant of the traversal: the visited set has no
duplicates, it is exactly the insertion-ordered key list of the node
map, and every stored node is the normalization of the type-map record
of its key. -/
structure StInv (tm : List (String × IntrospectionType)) (st : St) : Prop where
  visited_nodup : st.visited.Nodup
  visited_eq : st.visited = st.nodes.map Prod.fst
  from_tm : ∀ p ∈ st.nodes, ∃ r, jsMapGet tm p.1 = some r ∧ p.2 = createTypeNode r

/-- The full loop invariant of the BFS: the basic state invariant, the
root present among the keys, the node list splitting into processed
nodes followed by the still-queued nodes with the edges being exactly
the processed nodes' contributions, reachability of every key from the
root along the emitted edges, and completeness (a key is either still
queued or all its referenced names that have records are keys). -/
structure Inv (tm : List (String × IntrospectionType)) (root : String)
    (st : St) : Prop where
  base : StInv tm st
  root_mem : root ∈ st.nodes.map Prod.fst
  split : ∃ pre post, st.nodes = pre ++ post ∧ post.map Prod.fst = st.queue ∧
    st.edges = pre.flatMap edgeListPair
  reach : ∀ x ∈ st.nodes.map Prod.fst, EdgeReach st.edges root x
  complete : ∀ x ∈ st.nodes.map Prod.fst, x ∈ st.queue ∨
    ∀ node, jsMapGet st.nodes x = some node →
      ∀ y ∈ refNames node, (jsMapGet tm y).isSome → y ∈ st.nodes.map Prod.fst

/-- Count of type-map keys not yet visited. -/
def unvisitedCount (tm : List (String × IntrospectionType)) (st : St) : Nat :=
  ((tm.map Prod.fst).toFinset \ st.visited.toFinset).card

/-- The decreasing measure of the BFS loop. -/
def loopMeasure (tm : List (String × IntrospectionType)) (st : St) : Nat :=
  2 * unvisitedCount tm st + st.queue.length

/-! ### Spec-side definitions for the refinement claims -/

/-- Modelled from the claim's words for the normalizer's field
simplification: the entry carries the field's resolved base type name,
substituting the literal `Unknown` exactly when resolution yields null
(and nothing else); absent when the record declares zero fields or none
at all. -/
def claimedFields (typeData : IntrospectionType) : Option (List FieldInfo) :=
  match typeData.fields with
  | none => none
  | some fs =>
    if fs.length = 0 then none
    else some (fs.map (fun field =>
      { name := field.name
        typeName := (unwrapTypeRef field.type).getD "Unknown"
        description := field.description }))

/-- The amended field simplification: `Unknown` is substituted when
resolution yields null or the empty string (the JS `||` default treats
both as falsy). -/
def amendedFields (typeData : IntrospectionType) : Option (List FieldInfo) :=
  match typeData.fields with
  | none => none
  | some fs =>
    if fs.length = 0 then none
    else some (fs.map (fun field =>
      { name := field.name
        typeName :=
          match unwrapTypeRef field.type with
          | none => "Unknown"
          | some s => if s = "" then "Unknown" else s
        description := field.description }))

/-- A chain of wrapper layers (each of the given kinds, with null
`name`) around a leaf reference. -/
def wrapChain (ws : List TypeKind) (leaf : TypeRef) : TypeRef :=
  match ws with
  | [] => leaf
  | w :: ws => .wrap w none (wrapChain ws leaf)

/-! ### Concrete documents used by witnesses and counterexamples -/

/-- A field whose declared type is a bare named object reference. -/
def namedField (n : String) (t : String) : IntrospectionField :=
  { name := n, type := .leaf .OBJECT (some t) }

/-- `Query { device: DeviceType }` of the end-to-end scenario. -/
def scenarioQuery : IntrospectionType :=
  { kind := .OBJECT, name := "Query",
    fields := some [namedField "device" "DeviceType"] }

/-- `DeviceType { id: ID, cable: CableType }` of the scenario. -/
def scenarioDevice : IntrospectionType :=
  { kind := .OBJECT, name := "DeviceType",
    fields := some
      [{ name := "id", type := .leaf .SCALAR (some "ID") },
       namedField "cable" "CableType"] }

/-- `CableType { id: ID }` of the scenario. -/
def scenarioCable : IntrospectionType :=
  { kind := .OBJECT, name := "CableType",
    fields := some [{ name := "id", type := .leaf .SCALAR (some "ID") }] }

/-- The `ID` scalar record. -/
def scenarioID : IntrospectionType := { kind := .SCALAR, name := "ID" }

/-- The end-to-end scenario document without the `ID` record. -/
def scenarioDocNoID : IntrospectionDoc :=
  { schema := some
      { queryType := some { name := "Query" }
        types := some [scenarioQuery, scenarioDevice, scenarioCable] } }

/-- The end-to-end scenario document with the `ID` record. -/
def scenarioDocWithID : IntrospectionDoc :=
  { schema := some
      { queryType := some { name := "Query" }
        types := some [scenarioQuery, scenarioDevice, scenarioCable, scenarioID] } }

/-- The four FIELD edges the extractor emits for the scenario (in both
variants: the edges into `ID` are emitted even when `ID` has no
record). -/
def scenarioEdges : List Edge :=
  [{ source := "Query", target := "DeviceType", edgeType := .FIELD,
     fieldName := some "device" },
   { source := "DeviceType", target := "ID", edgeType := .FIELD,
     fieldName := some "id" },
   { source := "DeviceType", target := "CableType", edgeType := .FIELD,
     fieldName := some "cable" },
   { source := "CableType", target := "ID", edgeType := .FIELD,
     fieldName := some "id" }]

/-- A cyclic schema: `Query { a: A }`, `A { b: B }`, `B { a: A }`
(A references B which references A). -/
def cyclicDoc : IntrospectionDoc :=
  { schema := some
      { queryType := some { name := "Query" }
        types := some
          [{ kind := .OBJECT, name := "Query", fields := some [namedField "a" "A"] },
           { kind := .OBJECT, name := "A", fields := some [namedField "b" "B"] },
           { kind := .OBJECT, name := "B", fields := some [namedField "a" "A"] }] } }

/-- A record with one field whose declared type is a leaf named by the
empty string: `unwrapType` resolves it to `""`, which the JS `||`
default replaces with `Unknown`. -/
def emptyNameRecord : IntrospectionType :=
  { kind := .OBJECT, name := "T",
    fields := some [{ name := "f", type := .leaf .SCALAR (some "") }] }

/-- Spec section 8's first error scenario: `{ data: { __schema: {} } }`. -/
def docMissingTypes : IntrospectionDoc := { schema := some {} }

/-- Spec section 8's second error scenario: `queryType: null`,
`types: []`. -/
def docNullQueryType : IntrospectionDoc :=
  { schema := some { queryType := none, types := some [] } }

/-- Spec section 8's third error scenario: a declared root with no
matching record. -/
def docRootMissing : IntrospectionDoc :=
  { schema := some { queryType := some { name := "Query" }, types := some [scenarioID] } }

/-- The normalized `Query` node of the scenario. -/
def scenarioQueryNode : TypeNode :=
  ⟨"Query", .OBJECT, true, false, false,
    some [⟨"device", "DeviceType", none⟩], none, none, none⟩

/-- The normalized `DeviceType` node of the scenario. -/
def scenarioDeviceNode : TypeNode :=
  ⟨"DeviceType", .OBJECT, true, false, false,
    some [⟨"id", "ID", none⟩, ⟨"cable", "CableType", none⟩], none, none, none⟩

/-- The normalized `CableType` node of the scenario. -/
def scenarioCableNode : TypeNode :=
  ⟨"CableType", .OBJECT, true, false, false,
    some [⟨"id", "ID", none⟩], none, none, none⟩

/-- The normalized `ID` node of the scenario. -/
def scenarioIDNode : TypeNode :=
  ⟨"ID", .SCALAR, false, false, true, none, none, none, none⟩

/-- The graph the extractor returns for the scenario without the `ID`
record: three nodes, but all four FIELD edges (two of them dangling
into `ID`). -/
def scenarioGraphNoID : TypeGraph :=
  ⟨[("Query", scenarioQueryNode), ("DeviceType", scenarioDeviceNode),
    ("CableType", scenarioCableNode)], scenarioEdges, scenarioQueryNode⟩

/-- The graph the extractor returns for the scenario with the `ID`
record: four nodes in breadth-first discovery order and the same four
FIELD edges. -/
def scenarioGraphWithID : TypeGraph :=
  ⟨[("Query", scenarioQueryNode), ("DeviceType", scenarioDeviceNode),
    ("ID", scenarioIDNode), ("CableType", scenarioCableNode)],
   scenarioEdges, scenarioQueryNode⟩

/-- The graph the extractor returns for the cyclic schema. -/
def cyclicGraph : TypeGraph :=
  ⟨[("Query", ⟨"Query", .OBJECT, true, false, false,
      some [⟨"a", "A", none⟩], none, none, none⟩),
    ("A", ⟨"A", .OBJECT, true, false, false,
      some [⟨"b", "B", none⟩], none, none, none⟩),
    ("B", ⟨"B", .OBJECT, true, false, false,
      some [⟨"a", "A", none⟩], none, none, none⟩)],
   [⟨"Query", "A", .FIELD, some "a"⟩, ⟨"A", "B", .FIELD, some "b"⟩,
    ⟨"B", "A", .FIELD, some "a"⟩],
   ⟨"Query", .OBJECT, true, false, false,
     some [⟨"a", "A", none⟩], none, none, none⟩⟩

/-- A document declaring a meta-type next to the scenario root. -/
def metaDoc : IntrospectionDoc :=
  { schema := some
      { queryType := some { name := "Query" }
        types := some [{ kind := .OBJECT, name := "__Schema" }, scenarioQuery] } }

/-- What the parser returns for `metaDoc`: the meta-type is filtered
out. -/
def metaParsed : ParsedIntrospection :=
  ⟨[scenarioQuery], some "Query"⟩

/-- The `lacks schema or types` condition of claim C5. -/
def lacksSchemaTypes (d : IntrospectionDoc) : Prop :=
  d.schema = none ∨ ∃ s, d.schema = some s ∧ s.types = none

/-- The `parser reports no query-type name` condition of claim C5. -/
def parserNoRoot (d : IntrospectionDoc) : Prop :=
  ∃ p, parseIntrospection d = .ok p ∧ p.queryTypeName = none

/-- The `declared root has no record among the parsed types` condition
of claim C5. -/
def rootNotFound (d : IntrospectionDoc) : Prop :=
  ∃ p qn, parseIntrospection d = .ok p ∧ p.queryTypeName = some qn ∧
    ∀ t ∈ p.types, t.name ≠ qn

/-! ### Association-list lemmas -/

theorem jsMapGet_isSome_iff {α : Type} (m : List (String × α)) (k : String) :
    (jsMapGet m k).isSome ↔ k ∈ m.map Prod.fst := by
  induction m with
  | nil => simp [jsMapGet]
  | cons p rest ih =>
    by_cases h : p.1 = k
    · simp [jsMapGet, h]
    · simp [jsMapGet, h, ih, Ne.symm h]

theorem jsMapGet_mem {α : Type} {m : List (String × α)} {k : String} {v : α}
    (h : jsMapGet m k = some v) : (k, v) ∈ m := by
  induction m with
  | nil => simp [jsMapGet] at h
  | cons p rest ih =>
    by_cases hk : p.1 = k
    · rw [jsMapGet, if_pos hk] at h
      cases h
      subst hk
      exact List.mem_cons_self _ _
    · rw [jsMapGet, if_neg hk] at h
      exact List.mem_cons_of_mem _ (ih h)

theorem jsMapGet_none_iff {α : Type} (m : List (String × α)) (k : String) :
    jsMapGet m k = none ↔ k ∉ m.map Prod.fst := by
  rw [← jsMapGet_isSome_iff]
  cases jsMapGet m k <;> simp

theorem jsMapGet_append_left {α : Type} {m : List (String × α)} {k : String}
    {v : α} (m' : List (String × α)) (h : jsMapGet m k = some v) :
    jsMapGet (m ++ m') k = some v := by
  induction m with
  | nil => simp [jsMapGet] at h
  | cons p rest ih =>
    by_cases hk : p.1 = k
    · rw [jsMapGet, if_pos hk] at h
      simpa [jsMapGet, hk] using h
    · rw [jsMapGet, if_neg hk] at h
      simpa [jsMapGet, hk] using ih h

theorem jsMapGet_append_right {α : Type} {m : List (String × α)} {k : String}
    (m' : List (String × α)) (h : k ∉ m.map Prod.fst) :
    jsMapGet (m ++ m') k = jsMapGet m' k := by
  induction m with
  | nil => simp
  | cons p rest ih =>
    simp only [List.map_cons, List.mem_cons] at h
    push_neg at h
    rw [List.cons_append, jsMapGet, if_neg (Ne.symm h.1)]
    exact ih h.2

theorem jsMapSet_of_not_mem {α : Type} {m : List (String × α)} {k : String}
    (v : α) (h : k ∉ m.map Prod.fst) : jsMapSet m k v = m ++ [(k, v)] := by
  rw [jsMapSet, if_neg h]

theorem nodup_keys_val_eq {α : Type} {m : List (String × α)} {k : String}
    {v v' : α} (hnd : (m.map Prod.fst).Nodup) (h : (k, v) ∈ m)
    (h' : (k, v') ∈ m) : v = v' := by
  induction m with
  | nil => simp at h
  | cons p rest ih =>
    simp only [List.map_cons, List.nodup_cons] at hnd
    rcases List.mem_cons.1 h with h1 | h1 <;>
      rcases List.mem_cons.1 h' with h2 | h2
    · rw [← h2] at h1
      exact (Prod.ext_iff.1 h1).2
    · exfalso
      apply hnd.1
      rw [← h1]
      exact List.mem_map.2 ⟨(k, v'), h2, rfl⟩
    · exfalso
      apply hnd.1
      rw [← h2]
      exact List.mem_map.2 ⟨(k, v), h1, rfl⟩
    · exact ih hnd.2 h1 h2

theorem jsMapGet_of_mem_nodup {α : Type} {m : List (String × α)} {k : String}
    {v : α} (hnd : (m.map Prod.fst).Nodup) (h : (k, v) ∈ m) :
    jsMapGet m k = some v := by
  have hs : (jsMapGet m k).isSome :=
    (jsMapGet_isSome_iff m k).2 (List.mem_map_of_mem Prod.fst h)
  rcases Option.isSome_iff_exists.1 hs with ⟨v', hv'⟩
  rw [hv']
  exact congrArg some (nodup_keys_val_eq hnd (jsMapGet_mem hv') h)

/-! ### Type-map construction lemmas -/

theorem jsMapSet_pair_sub {α : Type} {m : List (String × α)} {k : String}
    {v : α} : ∀ p ∈ jsMapSet m k v, p ∈ m ∨ p = (k, v) := by
  intro p hp
  rw [jsMapSet] at hp
  split at hp
  · rcases List.mem_map.1 hp with ⟨q, hq, hqe⟩
    by_cases h : q.1 = k
    · right; rw [if_pos h] at hqe; exact hqe.symm
    · left; rw [if_neg h] at hqe; exact hqe ▸ hq
  · rcases List.mem_append.1 hp with h | h
    · exact Or.inl h
    · right; simpa using h

theorem map_fst_replace {α : Type} (m : List (String × α)) (k : String)
    (v : α) :
    (m.map (fun p => if p.1 = k then (k, v) else p)).map Prod.fst =
      m.map Prod.fst := by
  induction m with
  | nil => rfl
  | cons p rest ih =>
    by_cases h : p.1 = k
    · simp [h, ih]
    · simp [h, ih]

theorem jsMapSet_mem_keys {α : Type} (m : List (String × α)) (k : String)
    (v : α) (n : String) :
    n ∈ (jsMapSet m k v).map Prod.fst ↔ n ∈ m.map Prod.fst ∨ n = k := by
  rw [jsMapSet]
  by_cases hk : k ∈ m.map Prod.fst
  · rw [if_pos hk, map_fst_replace]
    exact ⟨Or.inl, fun h => h.elim id (fun he => he ▸ hk)⟩
  · rw [if_neg hk]
    simp


theorem jsMapSet_keys_nodup {α : Type} {m : List (String × α)} (k : String)
    (v : α) (h : (m.map Prod.fst).Nodup) :
    ((jsMapSet m k v).map Prod.fst).Nodup := by
  rw [jsMapSet]
  by_cases hk : k ∈ m.map Prod.fst
  · rw [if_pos hk, map_fst_replace]
    exact h
  · rw [if_neg hk, List.map_append]
    refine List.Nodup.append h (List.nodup_singleton k) ?_
    intro a ha hb
    simp only [List.map_cons, List.map_nil, List.mem_singleton] at hb
    exact hk (hb ▸ ha)

theorem foldl_set_pair (ts : List IntrospectionType)
    (m : List (String × IntrospectionType)) :
    ∀ p ∈ ts.foldl (fun m t => jsMapSet m t.name t) m,
      p ∈ m ∨ (p.2.name = p.1 ∧ p.2 ∈ ts) := by
  induction ts generalizing m with
  | nil => exact fun p hp => Or.inl hp
  | cons t ts ih =>
    intro p hp
    rw [List.foldl_cons] at hp
    rcases ih (jsMapSet m t.name t) p hp with h | h
    · rcases jsMapSet_pair_sub p h with h2 | h2
      · exact Or.inl h2
      · right
        rw [h2]
        exact ⟨rfl, List.mem_cons_self _ _⟩
    · exact Or.inr ⟨h.1, List.mem_cons_of_mem _ h.2⟩

theorem buildTypeMap_pair {ts : List IntrospectionType} :
    ∀ p ∈ buildTypeMap ts, p.2.name = p.1 ∧ p.2 ∈ ts := by
  intro p hp
  rcases foldl_set_pair ts [] p hp with h | h
  · simp at h
  · exact h

theorem foldl_set_keys (ts : List IntrospectionType)
    (m : List (String × IntrospectionType)) (n : String) :
    n ∈ (ts.foldl (fun m t => jsMapSet m t.name t) m).map Prod.fst ↔
      n ∈ m.map Prod.fst ∨ ∃ t ∈ ts, t.name = n := by
  induction ts generalizing m with
  | nil => simp
  | cons t ts ih =>
    rw [List.foldl_cons, ih, jsMapSet_mem_keys]
    constructor
    · rintro ((h | h) | h)
      · exact Or.inl h
      · exact Or.inr ⟨t, List.mem_cons_self _ _, h.symm⟩
      · rcases h with ⟨u, hu, hn⟩
        exact Or.inr ⟨u, List.mem_cons_of_mem _ hu, hn⟩
    · rintro (h | ⟨u, hu, hn⟩)
      · exact Or.inl (Or.inl h)
      · rcases List.mem_cons.1 hu with h2 | h2
        · exact Or.inl (Or.inr (by rw [← hn, h2]))
        · exact Or.inr ⟨u, h2, hn⟩

theorem buildTypeMap_mem_keys (ts : List IntrospectionType) (n : String) :
    n ∈ (buildTypeMap ts).map Prod.fst ↔ ∃ t ∈ ts, t.name = n := by
  rw [buildTypeMap, foldl_set_keys]
  simp

theorem createTypeNode_name (r : IntrospectionType) :
    (createTypeNode r).name = r.name := rfl

/-! ### Single-emission lemmas -/

theorem emit_eq (tm : List (String × IntrospectionType)) (src : String)
    (et : EdgeType) (fn : Option String) (t : String) (st : St) :
    emit tm src et fn t st =
      (if t ∈ st.visited then
        { st with edges := st.edges ++
            [{ source := src, target := t, edgeType := et, fieldName := fn }] }
      else
        match jsMapGet tm t with
        | some r =>
          { nodes := jsMapSet st.nodes t (createTypeNode r)
            edges := st.edges ++
              [{ source := src, target := t, edgeType := et, fieldName := fn }]
            visited := st.visited ++ [t]
            queue := st.queue ++ [t] }
        | none =>
          { st with edges := st.edges ++
              [{ source := src, target := t, edgeType := et, fieldName := fn }] }) :=
  rfl

theorem emit_eq_visited {t : String} {st : St}
    (tm : List (String × IntrospectionType)) (src : String) (et : EdgeType)
    (fn : Option String) (hv : t ∈ st.visited) :
    emit tm src et fn t st =
      { st with edges := st.edges ++
          [{ source := src, target := t, edgeType := et, fieldName := fn }] } := by
  rw [emit_eq, if_pos hv]

theorem emit_eq_none {tm : List (String × IntrospectionType)} {t : String}
    {st : St} (src : String) (et : EdgeType) (fn : Option String)
    (hv : t ∉ st.visited) (hl : jsMapGet tm t = none) :
    emit tm src et fn t st =
      { st with edges := st.edges ++
          [{ source := src, target := t, edgeType := et, fieldName := fn }] } := by
  rw [emit_eq, if_neg hv, hl]

theorem emit_eq_some {tm : List (String × IntrospectionType)} {t : String}
    {st : St} {r : IntrospectionType} (src : String) (et : EdgeType)
    (fn : Option String) (hv : t ∉ st.visited) (hl : jsMapGet tm t = some r) :
    emit tm src et fn t st =
      { nodes := jsMapSet st.nodes t (createTypeNode r)
        edges := st.edges ++
          [{ source := src, target := t, edgeType := et, fieldName := fn }]
        visited := st.visited ++ [t]
        queue := st.queue ++ [t] } := by
  rw [emit_eq, if_neg hv, hl]

theorem emit_step (tm : List (String × IntrospectionType)) (src : String)
    (et : EdgeType) (fn : Option String) (t : String) (st : St)
    (h : StInv tm st) :
    StInv tm (emit tm src et fn t st) ∧
    (emit tm src et fn t st).edges = st.edges ++
      [{ source := src, target := t, edgeType := et, fieldName := fn }] ∧
    (∃ d, (emit tm src et fn t st).nodes = st.nodes ++ d ∧
      (emit tm src et fn t st).visited = st.visited ++ d.map Prod.fst ∧
      (emit tm src et fn t st).queue = st.queue ++ d.map Prod.fst ∧
      ∀ p ∈ d, p.1 = t) ∧
    ((jsMapGet tm t).isSome → t ∈ (emit tm src et fn t st).visited) := by
  by_cases hv : t ∈ st.visited
  · rw [emit_eq_visited tm src et fn hv]
    exact ⟨⟨h.visited_nodup, h.visited_eq, h.from_tm⟩, rfl,
      ⟨[], by simp, by simp, by simp, by simp⟩, fun _ => hv⟩
  · cases hl : jsMapGet tm t with
    | none =>
      rw [emit_eq_none src et fn hv hl]
      refine ⟨⟨h.visited_nodup, h.visited_eq, h.from_tm⟩, rfl,
        ⟨[], by simp, by simp, by simp, by simp⟩, fun hs => ?_⟩
      simp at hs
    | some r =>
      rw [emit_eq_some src et fn hv hl]
      have hkeys : t ∉ st.nodes.map Prod.fst := h.visited_eq ▸ hv
      have hset : jsMapSet st.nodes t (createTypeNode r) =
          st.nodes ++ [(t, createTypeNode r)] :=
        jsMapSet_of_not_mem _ hkeys
      refine ⟨⟨?_, ?_, ?_⟩, rfl,
        ⟨[(t, createTypeNode r)], hset, rfl, rfl, by simp⟩, fun _ => ?_⟩
      · show (st.visited ++ [t]).Nodup
        refine List.Nodup.append h.visited_nodup (List.nodup_singleton t) ?_
        intro a ha hb
        simp only [List.mem_singleton] at hb
        exact hv (hb ▸ ha)
      · show st.visited ++ [t] = _
        rw [hset, List.map_append, ← h.visited_eq]
        simp
      · intro p hp
        rw [hset] at hp
        rcases List.mem_append.1 hp with h2 | h2
        · exact h.from_tm p h2
        · simp only [List.mem_singleton] at h2
          exact ⟨r, h2 ▸ hl, by rw [h2]⟩
      · exact List.mem_append_right _ (List.mem_singleton.2 rfl)

/-! ### Fold-level emission lemmas -/

theorem foldl_emit {α : Type} (tm : List (String × IntrospectionType))
    (src : String) (ef : α → EdgeType) (ff : α → Option String)
    (tf : α → String) (L : List α) (st : St) (h : StInv tm st) :
    StInv tm (L.foldl (fun s a => emit tm src (ef a) (ff a) (tf a) s) st) ∧
    (L.foldl (fun s a => emit tm src (ef a) (ff a) (tf a) s) st).edges =
      st.edges ++ L.map (fun a =>
        { source := src, target := tf a, edgeType := ef a, fieldName := ff a }) ∧
    (∃ d, (L.foldl (fun s a => emit tm src (ef a) (ff a) (tf a) s) st).nodes =
        st.nodes ++ d ∧
      (L.foldl (fun s a => emit tm src (ef a) (ff a) (tf a) s) st).visited =
        st.visited ++ d.map Prod.fst ∧
      (L.foldl (fun s a => emit tm src (ef a) (ff a) (tf a) s) st).queue =
        st.queue ++ d.map Prod.fst ∧
      ∀ p ∈ d, p.1 ∈ L.map tf) ∧
    (∀ a ∈ L, (jsMapGet tm (tf a)).isSome →
      tf a ∈ (L.foldl (fun s a => emit tm src (ef a) (ff a) (tf a) s) st).visited) := by
  induction L generalizing st with
  | nil =>
    exact ⟨h, by simp, ⟨[], by simp, by simp, by simp, by simp⟩, by simp⟩
  | cons a L ih =>
    rw [List.foldl_cons]
    obtain ⟨h1, he1, ⟨d1, hn1, hv1, hq1, hd1⟩, hvis1⟩ :=
      emit_step tm src (ef a) (ff a) (tf a) st h
    obtain ⟨h2, he2, ⟨d2, hn2, hv2, hq2, hd2⟩, hvis2⟩ :=
      ih (emit tm src (ef a) (ff a) (tf a) st) h1
    refine ⟨h2, ?_, ⟨d1 ++ d2, ?_, ?_, ?_, ?_⟩, ?_⟩
    · rw [he2, he1, List.append_assoc, List.map_cons, List.singleton_append]
    · rw [hn2, hn1, List.append_assoc]
    · rw [hv2, hv1, List.append_assoc, List.map_append]
    · rw [hq2, hq1, List.append_assoc, List.map_append]
    · intro p hp
      rcases List.mem_append.1 hp with hm | hm
      · rw [List.map_cons, hd1 p hm]
        exact List.mem_cons_self _ _
      · exact List.map_cons tf a L ▸ List.mem_cons_of_mem _ (hd2 p hm)
    · intro b hb hs
      rcases List.mem_cons.1 hb with hb | hb
      · subst hb
        rw [hv2]
        exact List.mem_append_left _ (hvis1 hs)
      · exact hvis2 b hb hs

theorem foldl_emit_fields (tm : List (String × IntrospectionType))
    (src : String) (L : List FieldInfo) (st : St) (h : StInv tm st) :
    StInv tm (L.foldl (fun s field =>
      emit tm src .FIELD (some field.name) field.typeName s) st) ∧
    (L.foldl (fun s field =>
      emit tm src .FIELD (some field.name) field.typeName s) st).edges =
      st.edges ++ L.map (fun f =>
        { source := src, target := f.typeName, edgeType := EdgeType.FIELD,
          fieldName := some f.name }) ∧
    (∃ d, (L.foldl (fun s field =>
        emit tm src .FIELD (some field.name) field.typeName s) st).nodes =
        st.nodes ++ d ∧
      (L.foldl (fun s field =>
        emit tm src .FIELD (some field.name) field.typeName s) st).visited =
        st.visited ++ d.map Prod.fst ∧
      (L.foldl (fun s field =>
        emit tm src .FIELD (some field.name) field.typeName s) st).queue =
        st.queue ++ d.map Prod.fst ∧
      ∀ p ∈ d, p.1 ∈ L.map (fun f => f.typeName)) ∧
    (∀ f ∈ L, (jsMapGet tm f.typeName).isSome →
      f.typeName ∈ (L.foldl (fun s field =>
        emit tm src .FIELD (some field.name) field.typeName s) st).visited) :=
  foldl_emit tm src (fun _ => .FIELD) (fun f => some f.name)
    (fun f => f.typeName) L st h

theorem foldl_emit_refs (tm : List (String × IntrospectionType))
    (src : String) (et : EdgeType) (L : List String) (st : St)
    (h : StInv tm st) :
    StInv tm (L.foldl (fun s x => emit tm src et none x s) st) ∧
    (L.foldl (fun s x => emit tm src et none x s) st).edges =
      st.edges ++ L.map (fun x =>
        { source := src, target := x, edgeType := et, fieldName := none }) ∧
    (∃ d, (L.foldl (fun s x => emit tm src et none x s) st).nodes =
        st.nodes ++ d ∧
      (L.foldl (fun s x => emit tm src et none x s) st).visited =
        st.visited ++ d.map Prod.fst ∧
      (L.foldl (fun s x => emit tm src et none x s) st).queue =
        st.queue ++ d.map Prod.fst ∧
      ∀ p ∈ d, p.1 ∈ L) ∧
    (∀ x ∈ L, (jsMapGet tm x).isSome →
      x ∈ (L.foldl (fun s x => emit tm src et none x s) st).visited) := by
  obtain ⟨h1, h2, ⟨d, hn, hv, hq, hd⟩, h4⟩ :=
    foldl_emit tm src (fun _ => et) (fun _ => none) (fun x => x) L st h
  exact ⟨h1, h2, ⟨d, hn, hv, hq, fun p hp => by simpa using hd p hp⟩, h4⟩

/-! ### Node-expansion lemma -/

theorem expandNode_eq (tm : List (String × IntrospectionType)) (src : String)
    (node : TypeNode) (st : St) :
    expandNode tm src node st =
      (node.possibleTypes.getD []).foldl
        (fun s memberName => emit tm src .UNION_MEMBER none memberName s)
        ((node.interfaces.getD []).foldl
          (fun s interfaceName => emit tm src .IMPLEMENTS none interfaceName s)
          ((node.fields.getD []).foldl
            (fun s field =>
              emit tm src .FIELD (some field.name) field.typeName s) st)) := by
  unfold expandNode
  cases node.fields <;> cases node.interfaces <;> cases node.possibleTypes <;> rfl

theorem expandNode_step (tm : List (String × IntrospectionType)) (src : String)
    (node : TypeNode) (st : St) (h : StInv tm st) :
    StInv tm (expandNode tm src node st) ∧
    (expandNode tm src node st).edges = st.edges ++ edgeListPair (src, node) ∧
    (∃ d, (expandNode tm src node st).nodes = st.nodes ++ d ∧
      (expandNode tm src node st).visited = st.visited ++ d.map Prod.fst ∧
      (expandNode tm src node st).queue = st.queue ++ d.map Prod.fst ∧
      ∀ p ∈ d, p.1 ∈ refNames node) ∧
    (∀ y ∈ refNames node, (jsMapGet tm y).isSome →
      y ∈ (expandNode tm src node st).visited) := by
  rw [expandNode_eq]
  obtain ⟨h1, he1, ⟨d1, hn1, hv1, hq1, hd1⟩, hvis1⟩ :=
    foldl_emit_fields tm src (node.fields.getD []) st h
  obtain ⟨h2, he2, ⟨d2, hn2, hv2, hq2, hd2⟩, hvis2⟩ :=
    foldl_emit_refs tm src .IMPLEMENTS (node.interfaces.getD []) _ h1
  obtain ⟨h3, he3, ⟨d3, hn3, hv3, hq3, hd3⟩, hvis3⟩ :=
    foldl_emit_refs tm src .UNION_MEMBER (node.possibleTypes.getD []) _ h2
  have hrefs : refNames node =
      (node.fields.getD []).map (fun f => f.typeName) ++
        node.interfaces.getD [] ++ node.possibleTypes.getD [] := rfl
  refine ⟨h3, ?_, ⟨d1 ++ d2 ++ d3, ?_, ?_, ?_, ?_⟩, ?_⟩
  · rw [he3, he2, he1, edgeListPair]
    simp [List.append_assoc]
  · rw [hn3, hn2, hn1]
    simp [List.append_assoc]
  · rw [hv3, hv2, hv1]
    simp [List.append_assoc]
  · rw [hq3, hq2, hq1]
    simp [List.append_assoc]
  · intro p hp
    rw [hrefs]
    rcases List.mem_append.1 hp with hm | hm
    · rcases List.mem_append.1 hm with hm2 | hm2
      · exact List.mem_append_left _ (List.mem_append_left _ (hd1 p hm2))
      · exact List.mem_append_left _ (List.mem_append_right _ (hd2 p hm2))
    · exact List.mem_append_right _ (hd3 p hm)
  · intro y hy hs
    rw [hrefs] at hy
    rcases List.mem_append.1 hy with hm | hm
    · rcases List.mem_append.1 hm with hm2 | hm2
      · rcases List.mem_map.1 hm2 with ⟨f, hf, hfe⟩
        subst hfe
        have := hvis1 f hf hs
        rw [hv3, hv2]
        exact List.mem_append_left _ (List.mem_append_left _ this)
      · have := hvis2 y hm2 hs
        rw [hv3]
        exact List.mem_append_left _ this
    · exact hvis3 y hm hs

/-! ### Reachability and edge-shape helpers -/

theorem edgeReach_mono {es es2 : List Edge} {root x : String}
    (h : EdgeReach es root x) : EdgeReach (es ++ es2) root x :=
  Relation.ReflTransGen.mono
    (fun _ _ hs => by
      obtain ⟨e, he, hab⟩ := hs
      exact ⟨e, List.mem_append_left _ he, hab⟩) h

theorem edgeListPair_source (src : String) (node : TypeNode) :
    ∀ e ∈ edgeListPair (src, node), e.source = src := by
  intro e he
  simp only [edgeListPair, List.mem_append, List.mem_map] at he
  rcases he with (⟨a, _, hae⟩ | ⟨a, _, hae⟩) | ⟨a, _, hae⟩ <;> rw [← hae]

theorem refNames_target (src : String) (node : TypeNode) :
    ∀ y ∈ refNames node,
      ∃ e ∈ edgeListPair (src, node), e.source = src ∧ e.target = y := by
  intro y hy
  simp only [refNames, List.mem_append, List.mem_map] at hy
  rcases hy with (⟨f, hf, hfe⟩ | hm) | hm
  · refine ⟨⟨src, f.typeName, .FIELD, some f.name⟩, ?_, rfl, hfe⟩
    exact List.mem_append_left _ (List.mem_append_left _
      (List.mem_map_of_mem _ hf))
  · refine ⟨⟨src, y, .IMPLEMENTS, none⟩, ?_, rfl, rfl⟩
    exact List.mem_append_left _ (List.mem_append_right _
      (List.mem_map_of_mem _ hm))
  · refine ⟨⟨src, y, .UNION_MEMBER, none⟩, ?_, rfl, rfl⟩
    exact List.mem_append_right _ (List.mem_map_of_mem _ hm)

/-! ### One full BFS step preserves the loop invariant -/

theorem step_Inv (tm : List (String × IntrospectionType)) (root : String)
    (st : St) (name : String) (rest : List String) (node : TypeNode)
    (hInv : Inv tm root st) (hq : st.queue = name :: rest)
    (hlook : jsMapGet st.nodes name = some node) :
    Inv tm root (expandNode tm name node { st with queue := rest }) := by
  have hbase : StInv tm ({ st with queue := rest } : St) :=
    ⟨hInv.base.visited_nodup, hInv.base.visited_eq, hInv.base.from_tm⟩
  obtain ⟨h1, he, ⟨d, hn, hv, hqd, hd⟩, hvis⟩ :=
    expandNode_step tm name node ({ st with queue := rest }) hbase
  obtain ⟨pre, post, hsplit, hpost, hedges⟩ := hInv.split
  have hkeysnd : (st.nodes.map Prod.fst).Nodup :=
    hInv.base.visited_eq ▸ hInv.base.visited_nodup
  obtain ⟨p0, post1, rfl⟩ : ∃ p0 post1, post = p0 :: post1 := by
    cases post with
    | nil => rw [hq] at hpost; simp at hpost
    | cons p0 post1 => exact ⟨p0, post1, rfl⟩
  have hpost' : p0.1 = name ∧ post1.map Prod.fst = rest := by
    rw [hq] at hpost
    simpa using hpost
  have hp0mem : p0 ∈ st.nodes := by
    rw [hsplit]
    exact List.mem_append_right _ (List.mem_cons_self _ _)
  have hp0 : p0 = (name, node) := by
    have hmem2 : (name, p0.2) ∈ st.nodes := by
      have : p0 = (name, p0.2) := by
        rw [← hpost'.1]
      rw [← this]
      exact hp0mem
    have := jsMapGet_of_mem_nodup hkeysnd hmem2
    rw [hlook] at this
    have hv2 : p0.2 = node := by
      injection this with h2
      exact h2.symm
    rw [← hpost'.1, ← hv2]
  have hnodes' : (expandNode tm name node { st with queue := rest }).nodes =
      st.nodes ++ d := hn
  have hqueue' : (expandNode tm name node { st with queue := rest }).queue =
      rest ++ d.map Prod.fst := hqd
  have hedges' : (expandNode tm name node { st with queue := rest }).edges =
      st.edges ++ edgeListPair (name, node) := he
  have hnamemem : name ∈ st.nodes.map Prod.fst :=
    List.mem_map.2 ⟨p0, hp0mem, by rw [hp0]⟩
  refine ⟨h1, ?_, ?_, ?_, ?_⟩
  · rw [hnodes', List.map_append]
    exact List.mem_append_left _ hInv.root_mem
  · refine ⟨pre ++ [(name, node)], post1 ++ d, ?_, ?_, ?_⟩
    · rw [hnodes', hsplit, hp0]
      simp [List.append_assoc]
    · rw [hqueue', List.map_append, hpost'.2]
    · rw [hedges', hedges, List.flatMap_append]
      simp [edgeListPair]
  · intro x hx
    rw [hnodes', List.map_append] at hx
    rcases List.mem_append.1 hx with hx | hx
    · rw [hedges']
      exact edgeReach_mono (hInv.reach x hx)
    · rcases List.mem_map.1 hx with ⟨p, hp, hpe⟩
      have hxref : x ∈ refNames node := hpe ▸ hd p hp
      obtain ⟨e, hemem, hesrc, hetgt⟩ := refNames_target name node x hxref
      have hreach_name : EdgeReach
          (expandNode tm name node { st with queue := rest }).edges root name := by
        rw [hedges']
        exact edgeReach_mono (hInv.reach name hnamemem)
      exact Relation.ReflTransGen.tail hreach_name
        ⟨e, by rw [hedges']; exact List.mem_append_right _ hemem, hesrc, hetgt⟩
  · intro x hx
    rw [hnodes', List.map_append] at hx
    rcases List.mem_append.1 hx with hx | hx
    · by_cases hxn : x = name
      · subst hxn
        right
        intro node' hlook' y hy hys
        have : jsMapGet (expandNode tm x node { st with queue := rest }).nodes x =
            some node := by
          rw [hnodes']
          exact jsMapGet_append_left _ hlook
        rw [hlook'] at this
        have hnode' : node' = node := by injection this
        subst hnode'
        have := hvis y hy hys
        rw [h1.visited_eq] at this
        exact this
      · rcases hInv.complete x hx with hc | hc
        · rw [hq] at hc
          rcases List.mem_cons.1 hc with hc | hc
          · exact absurd hc hxn
          · left
            rw [hqueue']
            exact List.mem_append_left _ hc
        · right
          intro node' hlook' y hy hys
          have hsome : (jsMapGet st.nodes x).isSome :=
            (jsMapGet_isSome_iff _ _).2 hx
          obtain ⟨w, hw⟩ := Option.isSome_iff_exists.1 hsome
          have : jsMapGet (expandNode tm name node { st with queue := rest }).nodes x =
              some w := by
            rw [hnodes']
            exact jsMapGet_append_left _ hw
          rw [hlook'] at this
          have hnw : node' = w := by injection this
          subst hnw
          have := hc node' hw y hy hys
          rw [hnodes', List.map_append]
          exact List.mem_append_left _ this
    · left
      rw [hqueue']
      exact List.mem_append_right _ hx

/-! ### Termination of the loop within the supplied fuel -/

theorem emit_measure (tm : List (String × IntrospectionType)) (src : String)
    (et : EdgeType) (fn : Option String) (t : String) (st : St) :
    loopMeasure tm (emit tm src et fn t st) ≤ loopMeasure tm st := by
  by_cases hv : t ∈ st.visited
  · rw [emit_eq_visited tm src et fn hv]
    exact le_refl _
  · cases hl : jsMapGet tm t with
    | none =>
      rw [emit_eq_none src et fn hv hl]
      exact le_refl _
    | some r =>
      rw [emit_eq_some src et fn hv hl]
      unfold loopMeasure unvisitedCount
      have htA : t ∈ (tm.map Prod.fst).toFinset :=
        List.mem_toFinset.2 ((jsMapGet_isSome_iff tm t).1 (by rw [hl]; rfl))
      have h1 : (st.visited ++ [t]).toFinset = insert t st.visited.toFinset := by
        ext a
        simp [or_comm]
      show 2 * ((tm.map Prod.fst).toFinset \ (st.visited ++ [t]).toFinset).card +
          (st.queue ++ [t]).length ≤ _
      rw [h1, Finset.sdiff_insert]
      have hmem : t ∈ (tm.map Prod.fst).toFinset \ st.visited.toFinset :=
        Finset.mem_sdiff.2 ⟨htA, fun hc => hv (List.mem_toFinset.1 hc)⟩
      rw [Finset.card_erase_of_mem hmem]
      have hpos : 1 ≤ ((tm.map Prod.fst).toFinset \ st.visited.toFinset).card :=
        Finset.card_pos.2 ⟨t, hmem⟩
      simp only [List.length_append, List.length_singleton]
      omega

theorem foldl_emit_measure {α : Type} (tm : List (String × IntrospectionType))
    (src : String) (ef : α → EdgeType) (ff : α → Option String)
    (tf : α → String) (L : List α) (st : St) :
    loopMeasure tm (L.foldl (fun s a => emit tm src (ef a) (ff a) (tf a) s) st) ≤
      loopMeasure tm st := by
  induction L generalizing st with
  | nil => exact le_refl _
  | cons a L ih =>
    rw [List.foldl_cons]
    exact le_trans (ih _) (emit_measure tm src (ef a) (ff a) (tf a) st)

theorem foldl_fields_measure (tm : List (String × IntrospectionType))
    (src : String) (L : List FieldInfo) (st : St) :
    loopMeasure tm (L.foldl (fun s field =>
      emit tm src .FIELD (some field.name) field.typeName s) st) ≤
      loopMeasure tm st :=
  @foldl_emit_measure FieldInfo tm src (fun _ => .FIELD) (fun f => some f.name)
    (fun f => f.typeName) L st

theorem foldl_refs_measure (tm : List (String × IntrospectionType))
    (src : String) (et : EdgeType) (L : List String) (st : St) :
    loopMeasure tm (L.foldl (fun s x => emit tm src et none x s) st) ≤
      loopMeasure tm st :=
  @foldl_emit_measure String tm src (fun _ => et) (fun _ => none)
    (fun x => x) L st

theorem expandNode_measure (tm : List (String × IntrospectionType))
    (src : String) (node : TypeNode) (st : St) :
    loopMeasure tm (expandNode tm src node st) ≤ loopMeasure tm st := by
  rw [expandNode_eq]
  refine le_trans (foldl_refs_measure tm src .UNION_MEMBER
    (node.possibleTypes.getD []) _) ?_
  refine le_trans (foldl_refs_measure tm src .IMPLEMENTS
    (node.interfaces.getD []) _) ?_
  exact foldl_fields_measure tm src (node.fields.getD []) st

theorem bfs_done_of_nil {fuel : Nat} {tm : List (String × IntrospectionType)}
    {st : St} (hq : st.queue = []) : bfs fuel tm st = .done st := by
  cases fuel <;> rw [bfs, hq]

theorem bfs_zero_cons {tm : List (String × IntrospectionType)} {st : St}
    {name : String} {rest : List String} (hq : st.queue = name :: rest) :
    bfs 0 tm st = .outOfFuel := by
  rw [bfs, hq]

theorem bfs_succ_panic {fuel : Nat} {tm : List (String × IntrospectionType)}
    {st : St} {name : String} {rest : List String}
    (hq : st.queue = name :: rest) (hl : jsMapGet st.nodes name = none) :
    bfs (fuel + 1) tm st = .panicMissing := by
  rw [bfs, hq]
  show (match jsMapGet st.nodes name with
    | none => BfsResult.panicMissing
    | some currentNode =>
      bfs fuel tm (expandNode tm name currentNode { st with queue := rest })) = _
  rw [hl]

theorem bfs_succ_step {fuel : Nat} {tm : List (String × IntrospectionType)}
    {st : St} {name : String} {rest : List String} {node : TypeNode}
    (hq : st.queue = name :: rest) (hl : jsMapGet st.nodes name = some node) :
    bfs (fuel + 1) tm st =
      bfs fuel tm (expandNode tm name node { st with queue := rest }) := by
  rw [bfs, hq]
  show (match jsMapGet st.nodes name with
    | none => BfsResult.panicMissing
    | some currentNode =>
      bfs fuel tm (expandNode tm name currentNode { st with queue := rest })) = _
  rw [hl]

theorem bfs_no_fuel : ∀ (fuel : Nat) (tm : List (String × IntrospectionType))
    (st : St), loopMeasure tm st ≤ fuel → bfs fuel tm st ≠ .outOfFuel := by
  intro fuel
  induction fuel with
  | zero =>
    intro tm st hm
    cases hq : st.queue with
    | nil =>
      rw [bfs_done_of_nil hq]
      simp
    | cons a l =>
      have hq0 : st.queue.length = 0 := by
        unfold loopMeasure at hm
        omega
      rw [hq] at hq0
      simp at hq0
  | succ fuel ih =>
    intro tm st hm
    cases hq : st.queue with
    | nil =>
      rw [bfs_done_of_nil hq]
      simp
    | cons name rest =>
      cases hl : jsMapGet st.nodes name with
      | none =>
        rw [bfs_succ_panic hq hl]
        simp
      | some node =>
        rw [bfs_succ_step hq hl]
        apply ih
        have h1 : loopMeasure tm ({ st with queue := rest } : St) =
            2 * unvisitedCount tm st + rest.length := rfl
        have h2 := expandNode_measure tm name node ({ st with queue := rest })
        have h3 : loopMeasure tm st =
            2 * unvisitedCount tm st + (name :: rest).length := by
          unfold loopMeasure
          rw [hq]
        simp only [List.length_cons] at h3
        omega

/-! ### Soundness of the loop -/

theorem bfs_sound : ∀ (fuel : Nat) (tm : List (String × IntrospectionType))
    (root : String) (st : St), Inv tm root st →
    (bfs fuel tm st ≠ .panicMissing) ∧
    ∀ st', bfs fuel tm st = .done st' →
      Inv tm root st' ∧ st'.queue = [] ∧ ∃ d, st'.nodes = st.nodes ++ d := by
  intro fuel
  induction fuel with
  | zero =>
    intro tm root st hInv
    cases hq : st.queue with
    | nil =>
      rw [bfs_done_of_nil hq]
      refine ⟨by simp, fun st' hdone => ?_⟩
      have hst : st = st' := by injection hdone
      subst hst
      exact ⟨hInv, hq, [], by simp⟩
    | cons a l =>
      rw [bfs_zero_cons hq]
      exact ⟨by simp, fun st' h => by simp at h⟩
  | succ fuel ih =>
    intro tm root st hInv
    cases hq : st.queue with
    | nil =>
      rw [bfs_done_of_nil hq]
      refine ⟨by simp, fun st' hdone => ?_⟩
      have hst : st = st' := by injection hdone
      subst hst
      exact ⟨hInv, hq, [], by simp⟩
    | cons name rest =>
      have hname_keys : name ∈ st.nodes.map Prod.fst := by
        obtain ⟨pre, post, hsplit, hpost, _⟩ := hInv.split
        have hpm : name ∈ post.map Prod.fst := by
          rw [hpost, hq]
          exact List.mem_cons_self _ _
        rw [hsplit, List.map_append]
        exact List.mem_append_right _ hpm
      have hsome : (jsMapGet st.nodes name).isSome :=
        (jsMapGet_isSome_iff _ _).2 hname_keys
      cases hl : jsMapGet st.nodes name with
      | none =>
        rw [hl] at hsome
        simp at hsome
      | some node =>
        rw [bfs_succ_step hq hl]
        have hstep := step_Inv tm root st name rest node hInv hq hl
        obtain ⟨hpanic, hdone⟩ := ih tm root _ hstep
        refine ⟨hpanic, fun st' hd => ?_⟩
        obtain ⟨hi, hqe, d2, hn2⟩ := hdone st' hd
        obtain ⟨_, _, ⟨d1, hn1, _, _, _⟩, _⟩ :=
          expandNode_step tm name node ({ st with queue := rest })
            ⟨hInv.base.visited_nodup, hInv.base.visited_eq, hInv.base.from_tm⟩
        exact ⟨hi, hqe, d1 ++ d2, by rw [hn2, hn1, List.append_assoc]⟩

/-! ### The initial state and the extractor-level lemmas -/

theorem initSt_nodes (rootNode : TypeNode) :
    (initSt rootNode).nodes = [(rootNode.name, rootNode)] := by
  rw [initSt, jsMapSet_of_not_mem _ (by simp)]
  rfl

theorem initSt_inv (tm : List (String × IntrospectionType))
    (rootData : IntrospectionType)
    (hroot : jsMapGet tm rootData.name = some rootData) :
    Inv tm (createTypeNode rootData).name (initSt (createTypeNode rootData)) := by
  have hnodes := initSt_nodes (createTypeNode rootData)
  refine ⟨⟨?_, ?_, ?_⟩, ?_, ?_, ?_, ?_⟩
  · simp [initSt]
  · rw [hnodes]
    rfl
  · intro p hp
    rw [hnodes] at hp
    simp only [List.mem_singleton] at hp
    exact ⟨rootData, by rw [hp]; exact hroot, by rw [hp]⟩
  · rw [hnodes]
    simp
  · refine ⟨[], (initSt (createTypeNode rootData)).nodes, by simp, ?_, rfl⟩
    rw [hnodes]
    rfl
  · intro x hx
    rw [hnodes] at hx
    simp only [List.map_cons, List.map_nil, List.mem_singleton] at hx
    rw [hx]
    exact Relation.ReflTransGen.refl
  · intro x hx
    left
    rw [hnodes] at hx
    simp only [List.map_cons, List.map_nil, List.mem_singleton] at hx
    rw [hx]
    show (createTypeNode rootData).name ∈ [(createTypeNode rootData).name]
    simp

theorem initSt_measure (tm : List (String × IntrospectionType))
    (rootNode : TypeNode) :
    loopMeasure tm (initSt rootNode) ≤ 2 * tm.length + 1 := by
  have h1 : unvisitedCount tm (initSt rootNode) ≤ tm.length := by
    refine le_trans (Finset.card_le_card Finset.sdiff_subset) ?_
    refine le_trans (List.toFinset_card_le _) ?_
    rw [List.length_map]
  show 2 * unvisitedCount tm (initSt rootNode) + 1 ≤ 2 * tm.length + 1
  omega

theorem extract_ok_exists (d : IntrospectionDoc) (p : ParsedIntrospection)
    (qn : String) (rootData : IntrospectionType)
    (hp : parseIntrospection d = .ok p) (hq : p.queryTypeName = some qn)
    (hroot : jsMapGet (buildTypeMap p.types) qn = some rootData) :
    ∃ g, extractGraph d = .ok g := by
  have hname : rootData.name = qn :=
    (buildTypeMap_pair _ (jsMapGet_mem hroot)).1
  have hroot' : jsMapGet (buildTypeMap p.types) rootData.name = some rootData := by
    rw [hname]
    exact hroot
  have hInv0 := initSt_inv (buildTypeMap p.types) rootData hroot'
  obtain ⟨hpanic, _⟩ := bfs_sound (2 * (buildTypeMap p.types).length + 1)
    (buildTypeMap p.types) (createTypeNode rootData).name
    (initSt (createTypeNode rootData)) hInv0
  have hfuel := bfs_no_fuel (2 * (buildTypeMap p.types).length + 1)
    (buildTypeMap p.types) (initSt (createTypeNode rootData))
    (initSt_measure _ _)
  cases hbfs : bfs (2 * (buildTypeMap p.types).length + 1)
      (buildTypeMap p.types) (initSt (createTypeNode rootData)) with
  | done st =>
    refine ⟨⟨st.nodes, st.edges, createTypeNode rootData⟩, ?_⟩
    simp only [extractGraph, hp, hq, hroot, hbfs]
  | panicMissing => exact absurd hbfs hpanic
  | outOfFuel => exact absurd hbfs hfuel

theorem extract_ok_spec (d : IntrospectionDoc) (g : TypeGraph)
    (h : extractGraph d = .ok g) :
    ∃ st, Inv (typeMapOf d) g.rootType.name st ∧ st.queue = [] ∧
      g.nodes = st.nodes ∧ g.edges = st.edges := by
  cases hp : parseIntrospection d with
  | error e =>
    simp only [extractGraph, hp] at h
    simp at h
  | ok p =>
    cases hq : p.queryTypeName with
    | none =>
      simp only [extractGraph, hp, hq] at h
      simp at h
    | some qn =>
      cases hroot : jsMapGet (buildTypeMap p.types) qn with
      | none =>
        simp only [extractGraph, hp, hq, hroot] at h
        simp at h
      | some rootData =>
        cases hbfs : bfs (2 * (buildTypeMap p.types).length + 1)
            (buildTypeMap p.types) (initSt (createTypeNode rootData)) with
        | panicMissing =>
          simp only [extractGraph, hp, hq, hroot, hbfs] at h
          simp at h
        | outOfFuel =>
          simp only [extractGraph, hp, hq, hroot, hbfs] at h
          simp at h
        | done st =>
          simp only [extractGraph, hp, hq, hroot, hbfs] at h
          have hg : g = ⟨st.nodes, st.edges, createTypeNode rootData⟩ := by
            injection h with h2
            exact h2.symm
          have hname : rootData.name = qn :=
            (buildTypeMap_pair _ (jsMapGet_mem hroot)).1
          have hroot' : jsMapGet (buildTypeMap p.types) rootData.name =
              some rootData := by
            rw [hname]
            exact hroot
          have hInv0 := initSt_inv (buildTypeMap p.types) rootData hroot'
          obtain ⟨_, hdone⟩ := bfs_sound (2 * (buildTypeMap p.types).length + 1)
            (buildTypeMap p.types) (createTypeNode rootData).name
            (initSt (createTypeNode rootData)) hInv0
          obtain ⟨hi, hqe, _⟩ := hdone st hbfs
          have htm : typeMapOf d = buildTypeMap p.types := by
            rw [typeMapOf, parsedTypesOf, hp]
          refine ⟨st, ?_, hqe, by rw [hg], by rw [hg]⟩
          rw [htm, hg]
          exact hi

/-! ### Consequences of the final invariant -/

theorem extract_ok_edges (d : IntrospectionDoc) (g : TypeGraph)
    (h : extractGraph d = .ok g) :
    g.edges = g.nodes.flatMap edgeListPair := by
  obtain ⟨st, hInv, hq, hn, he⟩ := extract_ok_spec d g h
  obtain ⟨pre, post, hsplit, hpost, hedges⟩ := hInv.split
  have hpostnil : post = [] := by
    have hm : post.map Prod.fst = [] := by rw [hpost, hq]
    exact List.map_eq_nil_iff.1 hm
  subst hpostnil
  rw [he, hn, hedges, hsplit]
  simp

theorem extract_ok_keys_nodup (d : IntrospectionDoc) (g : TypeGraph)
    (h : extractGraph d = .ok g) : (g.nodes.map Prod.fst).Nodup := by
  obtain ⟨st, hInv, _, hn, _⟩ := extract_ok_spec d g h
  rw [hn]
  exact hInv.base.visited_eq ▸ hInv.base.visited_nodup

theorem extract_ok_from_tm (d : IntrospectionDoc) (g : TypeGraph)
    (h : extractGraph d = .ok g) :
    ∀ p ∈ g.nodes, ∃ r, jsMapGet (typeMapOf d) p.1 = some r ∧
      p.2 = createTypeNode r := by
  obtain ⟨st, hInv, _, hn, _⟩ := extract_ok_spec d g h
  rw [hn]
  exact hInv.base.from_tm

theorem extract_ok_reach (d : IntrospectionDoc) (g : TypeGraph)
    (h : extractGraph d = .ok g) :
    ∀ x ∈ g.nodes.map Prod.fst, EdgeReach g.edges g.rootType.name x := by
  obtain ⟨st, hInv, _, hn, he⟩ := extract_ok_spec d g h
  rw [hn, he]
  exact hInv.reach

theorem extract_ok_complete (d : IntrospectionDoc) (g : TypeGraph)
    (h : extractGraph d = .ok g) :
    ∀ x ∈ g.nodes.map Prod.fst, ∀ node, jsMapGet g.nodes x = some node →
      ∀ y ∈ refNames node, (jsMapGet (typeMapOf d) y).isSome →
        y ∈ g.nodes.map Prod.fst := by
  obtain ⟨st, hInv, hq, hn, _⟩ := extract_ok_spec d g h
  rw [hn]
  intro x hx node hnode y hy hys
  rcases hInv.complete x hx with hc | hc
  · rw [hq] at hc
    simp at hc
  · exact hc node hnode y hy hys

theorem extract_ok_root_mem (d : IntrospectionDoc) (g : TypeGraph)
    (h : extractGraph d = .ok g) :
    g.rootType.name ∈ g.nodes.map Prod.fst := by
  obtain ⟨st, hInv, _, hn, _⟩ := extract_ok_spec d g h
  rw [hn]
  exact hInv.root_mem

/-! ### Parser classification helpers -/

theorem parse_ok_shape {d : IntrospectionDoc} {s : IntrospectionSchema}
    {ts : List IntrospectionType} (hs : d.schema = some s)
    (hts : s.types = some ts) :
    parseIntrospection d = .ok
      { types := ts.filter (fun t => !(strStartsWith t.name "__"))
        queryTypeName :=
          match s.queryType with
          | none => none
          | some q => if q.name = "" then none else some q.name } := by
  simp only [parseIntrospection, hs, hts]

theorem parse_error_shape {d : IntrospectionDoc} {e : ExtractError}
    (h : parseIntrospection d = .error e) : e = .InvalidInputError := by
  cases hs : d.schema with
  | none =>
    simp only [parseIntrospection, hs] at h
    injection h with h2
    exact h2.symm
  | some s =>
    cases hts : s.types with
    | none =>
      simp only [parseIntrospection, hs, hts] at h
      injection h with h2
      exact h2.symm
    | some ts =>
      rw [parse_ok_shape hs hts] at h
      simp at h

theorem lacks_of_parse_error {d : IntrospectionDoc} {e : ExtractError}
    (h : parseIntrospection d = .error e) : lacksSchemaTypes d := by
  cases hs : d.schema with
  | none => exact Or.inl hs
  | some s =>
    cases hts : s.types with
    | none => exact Or.inr ⟨s, hs, hts⟩
    | some ts =>
      rw [parse_ok_shape hs hts] at h
      simp at h

theorem parse_error_of_lacks {d : IntrospectionDoc}
    (h : lacksSchemaTypes d) :
    parseIntrospection d = .error .InvalidInputError := by
  rcases h with h | ⟨s, hs, hts⟩
  · simp only [parseIntrospection, h]
  · simp only [parseIntrospection, hs, hts]

theorem buildTypeMap_none_iff (ts : List IntrospectionType) (qn : String) :
    jsMapGet (buildTypeMap ts) qn = none ↔ ∀ t ∈ ts, t.name ≠ qn := by
  rw [jsMapGet_none_iff, buildTypeMap_mem_keys]
  push_neg
  rfl

/-! ### Extractor result shape lemmas -/

theorem extract_eq_parse_error {d : IntrospectionDoc} {e : ExtractError}
    (h : parseIntrospection d = .error e) : extractGraph d = .error e := by
  simp only [extractGraph, h]

theorem extract_eq_noroot {d : IntrospectionDoc} {p : ParsedIntrospection}
    (hp : parseIntrospection d = .ok p) (hq : p.queryTypeName = none) :
    extractGraph d = .error .NoRootTypeError := by
  simp only [extractGraph, hp, hq]

theorem extract_eq_rootnotfound {d : IntrospectionDoc}
    {p : ParsedIntrospection} {qn : String}
    (hp : parseIntrospection d = .ok p) (hq : p.queryTypeName = some qn)
    (hroot : jsMapGet (buildTypeMap p.types) qn = none) :
    extractGraph d = .error (.RootTypeNotFoundError qn) := by
  simp only [extractGraph, hp, hq, hroot]

theorem extract_no_artifact (d : IntrospectionDoc) :
    extractGraph d ≠ .error .OutOfFuel ∧
    extractGraph d ≠ .error .PanicNodeMissing := by
  cases hp : parseIntrospection d with
  | error e =>
    rw [extract_eq_parse_error hp, parse_error_shape hp]
    exact ⟨by simp, by simp⟩
  | ok p =>
    cases hq : p.queryTypeName with
    | none =>
      rw [extract_eq_noroot hp hq]
      exact ⟨by simp, by simp⟩
    | some qn =>
      cases hroot : jsMapGet (buildTypeMap p.types) qn with
      | none =>
        rw [extract_eq_rootnotfound hp hq hroot]
        exact ⟨by simp, by simp⟩
      | some rootData =>
        obtain ⟨g, hg⟩ := extract_ok_exists d p qn rootData hp hq hroot
        rw [hg]
        exact ⟨by simp, by simp⟩

/-! ### Stand-alone preservation of `visited = keys` -/

theorem emit_visited_eq (tm : List (String × IntrospectionType))
    (src : String) (et : EdgeType) (fn : Option String) (t : String)
    (st : St) (h : st.visited = st.nodes.map Prod.fst) :
    (emit tm src et fn t st).visited =
      (emit tm src et fn t st).nodes.map Prod.fst := by
  by_cases hv : t ∈ st.visited
  · rw [emit_eq_visited tm src et fn hv]
    exact h
  · cases hl : jsMapGet tm t with
    | none =>
      rw [emit_eq_none src et fn hv hl]
      exact h
    | some r =>
      rw [emit_eq_some src et fn hv hl]
      show st.visited ++ [t] = _
      rw [jsMapSet_of_not_mem _ (h ▸ hv), List.map_append, ← h]
      simp

theorem foldl_emit_visited_eq {α : Type}
    (tm : List (String × IntrospectionType)) (src : String)
    (ef : α → EdgeType) (ff : α → Option String) (tf : α → String)
    (L : List α) (st : St) (h : st.visited = st.nodes.map Prod.fst) :
    (L.foldl (fun s a => emit tm src (ef a) (ff a) (tf a) s) st).visited =
      (L.foldl (fun s a => emit tm src (ef a) (ff a) (tf a) s) st).nodes.map
        Prod.fst := by
  induction L generalizing st with
  | nil => exact h
  | cons a L ih =>
    rw [List.foldl_cons]
    exact ih _ (emit_visited_eq tm src (ef a) (ff a) (tf a) st h)

theorem foldl_fields_visited_eq (tm : List (String × IntrospectionType))
    (src : String) (L : List FieldInfo) (st : St)
    (h : st.visited = st.nodes.map Prod.fst) :
    (L.foldl (fun s field =>
      emit tm src .FIELD (some field.name) field.typeName s) st).visited =
    (L.foldl (fun s field =>
      emit tm src .FIELD (some field.name) field.typeName s) st).nodes.map
        Prod.fst :=
  @foldl_emit_visited_eq FieldInfo tm src (fun _ => .FIELD)
    (fun f => some f.name) (fun f => f.typeName) L st h

theorem foldl_refs_visited_eq (tm : List (String × IntrospectionType))
    (src : String) (et : EdgeType) (L : List String) (st : St)
    (h : st.visited = st.nodes.map Prod.fst) :
    (L.foldl (fun s x => emit tm src et none x s) st).visited =
    (L.foldl (fun s x => emit tm src et none x s) st).nodes.map Prod.fst :=
  @foldl_emit_visited_eq String tm src (fun _ => et) (fun _ => none)
    (fun x => x) L st h

theorem expandNode_visited_eq (tm : List (String × IntrospectionType))
    (src : String) (node : TypeNode) (st : St)
    (h : st.visited = st.nodes.map Prod.fst) :
    (expandNode tm src node st).visited =
      (expandNode tm src node st).nodes.map Prod.fst := by
  rw [expandNode_eq]
  exact foldl_refs_visited_eq tm src .UNION_MEMBER _ _
    (foldl_refs_visited_eq tm src .IMPLEMENTS _ _
      (foldl_fields_visited_eq tm src _ _ h))

theorem bfs_visited_eq : ∀ (fuel : Nat)
    (tm : List (String × IntrospectionType)) (st st' : St),
    st.visited = st.nodes.map Prod.fst → bfs fuel tm st = .done st' →
    st'.visited = st'.nodes.map Prod.fst := by
  intro fuel
  induction fuel with
  | zero =>
    intro tm st st' h hdone
    cases hq : st.queue with
    | nil =>
      rw [bfs_done_of_nil hq] at hdone
      injection hdone with h2
      exact h2 ▸ h
    | cons a l =>
      rw [bfs_zero_cons hq] at hdone
      simp at hdone
  | succ fuel ih =>
    intro tm st st' h hdone
    cases hq : st.queue with
    | nil =>
      rw [bfs_done_of_nil hq] at hdone
      injection hdone with h2
      exact h2 ▸ h
    | cons name rest =>
      cases hl : jsMapGet st.nodes name with
      | none =>
        rw [bfs_succ_panic hq hl] at hdone
        simp at hdone
      | some node =>
        rw [bfs_succ_step hq hl] at hdone
        exact ih tm (expandNode tm name node { st with queue := rest }) st'
          (expandNode_visited_eq tm name node ({ st with queue := rest }) h)
          hdone

/-! ### The FIELD edges of one source are exactly its fields -/

theorem flatMap_filter_fields (nodes : List (String × TypeNode))
    (hnd : (nodes.map Prod.fst).Nodup) (p : String × TypeNode)
    (hp : p ∈ nodes) :
    (nodes.flatMap edgeListPair).filter
      (fun e => e.source = p.1 ∧ e.edgeType = EdgeType.FIELD) =
    (p.2.fields.getD []).map (fun f =>
      ⟨p.1, f.typeName, .FIELD, some f.name⟩) := by
  induction nodes with
  | nil => simp at hp
  | cons q rest ih =>
    rw [List.flatMap_cons, List.filter_append]
    simp only [List.map_cons, List.nodup_cons] at hnd
    rcases List.mem_cons.1 hp with hpq | hpr
    · subst hpq
      have hrest : (rest.flatMap edgeListPair).filter
          (fun e => e.source = p.1 ∧ e.edgeType = EdgeType.FIELD) = [] := by
        rw [List.filter_eq_nil_iff]
        intro e he hpred
        rcases List.mem_flatMap.1 he with ⟨q', hq', he'⟩
        have hsrc : e.source = q'.1 := edgeListPair_source q'.1 q'.2 e he'
        simp only [decide_eq_true_eq] at hpred
        apply hnd.1
        rw [← hpred.1, hsrc]
        exact List.mem_map_of_mem Prod.fst hq'
      have hself : (edgeListPair p).filter
          (fun e => e.source = p.1 ∧ e.edgeType = EdgeType.FIELD) =
          (p.2.fields.getD []).map (fun f =>
            ⟨p.1, f.typeName, .FIELD, some f.name⟩) := by
        rw [edgeListPair, List.filter_append, List.filter_append]
        have h1 : ((p.2.fields.getD []).map (fun f =>
            ({ source := p.1, target := f.typeName,
               edgeType := EdgeType.FIELD,
               fieldName := some f.name } : Edge))).filter
            (fun e => e.source = p.1 ∧ e.edgeType = EdgeType.FIELD) =
            (p.2.fields.getD []).map (fun f =>
              ⟨p.1, f.typeName, .FIELD, some f.name⟩) := by
          rw [List.filter_eq_self]
          intro e he
          rcases List.mem_map.1 he with ⟨f, _, hfe⟩
          rw [← hfe]
          simp
        have h2 : ((p.2.interfaces.getD []).map (fun i =>
            ({ source := p.1, target := i, edgeType := EdgeType.IMPLEMENTS,
               fieldName := none } : Edge))).filter
            (fun e => e.source = p.1 ∧ e.edgeType = EdgeType.FIELD) = [] := by
          rw [List.filter_eq_nil_iff]
          intro e he hpred
          rcases List.mem_map.1 he with ⟨i, _, hie⟩
          simp only [decide_eq_true_eq] at hpred
          rw [← hie] at hpred
          simp at hpred
        have h3 : ((p.2.possibleTypes.getD []).map (fun m =>
            ({ source := p.1, target := m, edgeType := EdgeType.UNION_MEMBER,
               fieldName := none } : Edge))).filter
            (fun e => e.source = p.1 ∧ e.edgeType = EdgeType.FIELD) = [] := by
          rw [List.filter_eq_nil_iff]
          intro e he hpred
          rcases List.mem_map.1 he with ⟨m, _, hme⟩
          simp only [decide_eq_true_eq] at hpred
          rw [← hme] at hpred
          simp at hpred
        rw [h1, h2, h3]
        simp
      rw [hself, hrest]
      simp
    · have hq1 : q.1 ≠ p.1 := by
        intro hcontra
        exact hnd.1 (hcontra ▸ List.mem_map_of_mem Prod.fst hpr)
      have hqfilter : (edgeListPair q).filter
          (fun e => e.source = p.1 ∧ e.edgeType = EdgeType.FIELD) = [] := by
        rw [List.filter_eq_nil_iff]
        intro e he hpred
        have hsrc : e.source = q.1 := edgeListPair_source q.1 q.2 e he
        simp only [decide_eq_true_eq] at hpred
        exact hq1 (hsrc ▸ hpred.1)
      rw [hqfilter, ih hnd.2 hpr]
      simp

theorem parsedTypesOf_no_meta (d : IntrospectionDoc) :
    ∀ t ∈ parsedTypesOf d, strStartsWith t.name "__" = false := by
  intro t ht
  rw [parsedTypesOf] at ht
  cases hp : parseIntrospection d with
  | error e =>
    rw [hp] at ht
    simp at ht
  | ok p =>
    rw [hp] at ht
    cases hs : d.schema with
    | none =>
      rw [parse_error_of_lacks (Or.inl hs)] at hp
      simp at hp
    | some s =>
      cases hts : s.types with
      | none =>
        rw [parse_error_of_lacks (Or.inr ⟨s, hs, hts⟩)] at hp
        simp at hp
      | some ts =>
        rw [parse_ok_shape hs hts] at hp
        injection hp with hpe
        subst hpe
        have := (List.mem_filter.1 ht).2
        simpa using this

/-! ### The claims -/

/-- C1: for every introspection document on which extraction succeeds,
every node of the returned graph is reachable from the root via a path
of emitted edges; and conversely every type name transitively reachable
from the root through field references, implemented interfaces and
union members — stepping only through names that have a matching raw
record in the lookup table built from the parsed type list — is a key
of the node mapping provided it has a matching record itself. -/
theorem claim_C1_reachability (d : IntrospectionDoc) (g : TypeGraph)
    (h : extractGraph d = .ok g) :
    (∀ x ∈ g.nodes.map Prod.fst, EdgeReach g.edges g.rootType.name x) ∧
    (∀ y, Relation.ReflTransGen (SchemaStep (typeMapOf d)) g.rootType.name y →
      (jsMapGet (typeMapOf d) y).isSome → y ∈ g.nodes.map Prod.fst) := by
  refine ⟨extract_ok_reach d g h, ?_⟩
  intro y hy
  induction hy with
  | refl => exact fun _ => extract_ok_root_mem d g h
  | @tail b c hxy hstep ih =>
    intro hys
    obtain ⟨r, hb, hc⟩ := hstep
    have hbmem := ih (by rw [hb]; rfl)
    have hbs : (jsMapGet g.nodes b).isSome :=
      (jsMapGet_isSome_iff _ _).2 hbmem
    obtain ⟨node, hnode⟩ := Option.isSome_iff_exists.1 hbs
    obtain ⟨r', hr', hre⟩ :=
      extract_ok_from_tm d g h (b, node) (jsMapGet_mem hnode)
    have hrr : r' = r := by
      rw [hb] at hr'
      injection hr' with h2
      exact h2.symm
    subst hrr
    refine extract_ok_complete d g h b hbmem node hnode c ?_ hys
    rw [← hre] at hc
    exact hc

/-- Witness for C1 at the end-to-end scenario document: `CableType` is
a node of the produced graph and is reachable from the root. -/
theorem claim_C1_witness :
    "CableType" ∈ scenarioGraphWithID.nodes.map Prod.fst ∧
    EdgeReach scenarioGraphWithID.edges scenarioGraphWithID.rootType.name
      "CableType" :=
  ⟨by decide,
   (claim_C1_reachability scenarioDocWithID scenarioGraphWithID
     (by decide)).1 "CableType" (by decide)⟩

/-- C2: extraction always terminates within its loop bound — the fueled
loop never exhausts its fuel, even on cyclic schemas — and no type name
appears more than once as a key of the node mapping. -/
theorem claim_C2_termination :
    (∀ d, extractGraph d ≠ .error .OutOfFuel) ∧
    (∀ d g, extractGraph d = .ok g → (g.nodes.map Prod.fst).Nodup) :=
  ⟨fun d => (extract_no_artifact d).1,
   fun d g h => extract_ok_keys_nodup d g h⟩

/-- Witness for C2 at the cyclic schema `Query → A → B → A`: the loop
terminates (fuel is not exhausted) and the produced keys are without
duplicates. -/
theorem claim_C2_witness :
    extractGraph cyclicDoc ≠ .error .OutOfFuel ∧
    (cyclicGraph.nodes.map Prod.fst).Nodup :=
  ⟨claim_C2_termination.1 cyclicDoc,
   claim_C2_termination.2 cyclicDoc cyclicGraph (by decide)⟩

/-- C3: the edge sequence is exactly the concatenation, over the node
list in breadth-first dequeue order, of each node's FIELD edges in
field-declaration order followed by its IMPLEMENTS edges followed by
its UNION_MEMBER edges; moreover the FIELD edges of any one source are
in bijective, order- and duplicate-preserving correspondence with its
field list, each edge carrying its own field name. -/
theorem claim_C3_edge_order (d : IntrospectionDoc) (g : TypeGraph)
    (h : extractGraph d = .ok g) :
    g.edges = g.nodes.flatMap edgeListPair ∧
    ∀ p ∈ g.nodes, ∀ fs, p.2.fields = some fs →
      (g.edges.filter
        (fun e => e.source = p.1 ∧ e.edgeType = EdgeType.FIELD)).map
          (fun e => (e.target, e.fieldName)) =
        fs.map (fun f => (f.typeName, some f.name)) := by
  refine ⟨extract_ok_edges d g h, ?_⟩
  intro p hp fs hfs
  rw [extract_ok_edges d g h,
    flatMap_filter_fields g.nodes (extract_ok_keys_nodup d g h) p hp, hfs]
  simp

/-- Witness for C3 at the end-to-end scenario document. -/
theorem claim_C3_witness :
    scenarioGraphWithID.edges =
      scenarioGraphWithID.nodes.flatMap edgeListPair :=
  (claim_C3_edge_order scenarioDocWithID scenarioGraphWithID (by decide)).1

/-- C4: every field of every node yields a FIELD edge (and every
interface an IMPLEMENTS edge, every union member a UNION_MEMBER edge)
regardless of whether its target has a matching raw record; and every
key of the node mapping has a matching raw record in the parsed type
list — so a target without a record gets its edge but never a node,
and such dangling edges are not an error. -/
theorem claim_C4_dangling (d : IntrospectionDoc) (g : TypeGraph)
    (h : extractGraph d = .ok g) :
    (∀ p ∈ g.nodes,
      (∀ fs, p.2.fields = some fs → ∀ f ∈ fs,
        (⟨p.1, f.typeName, .FIELD, some f.name⟩ : Edge) ∈ g.edges) ∧
      (∀ l, p.2.interfaces = some l → ∀ i ∈ l,
        (⟨p.1, i, .IMPLEMENTS, none⟩ : Edge) ∈ g.edges) ∧
      (∀ l, p.2.possibleTypes = some l → ∀ m ∈ l,
        (⟨p.1, m, .UNION_MEMBER, none⟩ : Edge) ∈ g.edges)) ∧
    (∀ k ∈ g.nodes.map Prod.fst, ∃ t ∈ parsedTypesOf d, t.name = k) := by
  constructor
  · intro p hp
    have hedge : ∀ e ∈ edgeListPair p, e ∈ g.edges := by
      intro e he
      rw [extract_ok_edges d g h]
      exact List.mem_flatMap.2 ⟨p, hp, he⟩
    refine ⟨?_, ?_, ?_⟩
    · intro fs hfs f hf
      apply hedge
      exact List.mem_append_left _ (List.mem_append_left _
        (List.mem_map.2 ⟨f, by rw [hfs]; exact hf, rfl⟩))
    · intro l hl i hi
      apply hedge
      exact List.mem_append_left _ (List.mem_append_right _
        (List.mem_map.2 ⟨i, by rw [hl]; exact hi, rfl⟩))
    · intro l hl m hm
      apply hedge
      exact List.mem_append_right _
        (List.mem_map.2 ⟨m, by rw [hl]; exact hm, rfl⟩)
  · intro k hk
    rcases List.mem_map.1 hk with ⟨p, hp, hpe⟩
    obtain ⟨r, hr, _⟩ := extract_ok_from_tm d g h p hp
    have hpair := buildTypeMap_pair _ (jsMapGet_mem hr)
    exact ⟨r, hpair.2, by rw [hpair.1, hpe]⟩

/-- Witness for C4 at the scenario without the `ID` record: the
dangling `(DeviceType → ID, "id")` edge is emitted although `ID` is not
a key of the node mapping. -/
theorem claim_C4_witness :
    (⟨"DeviceType", "ID", .FIELD, some "id"⟩ : Edge) ∈
      scenarioGraphNoID.edges ∧
    "ID" ∉ scenarioGraphNoID.nodes.map Prod.fst :=
  ⟨((claim_C4_dangling scenarioDocNoID scenarioGraphNoID (by decide)).1
      ("DeviceType", scenarioDeviceNode) (by decide)).1
      [⟨"id", "ID", none⟩, ⟨"cable", "CableType", none⟩] rfl
      ⟨"id", "ID", none⟩ (by decide),
   by decide⟩

/-- C5: extraction raises exactly the three named fatal errors, each
characterized by its condition — `InvalidInputError` iff the document
lacks its schema object or its types sequence, `NoRootTypeError` iff
parsing succeeds but reports no query-type name, and
`RootTypeNotFoundError` iff a query-type name is declared but no parsed
record bears it — and in every other case a complete graph is returned
(never a partial graph, never the embedding's artifact outcomes). -/
theorem claim_C5_errors (d : IntrospectionDoc) :
    (extractGraph d = .error .InvalidInputError ↔ lacksSchemaTypes d) ∧
    (extractGraph d = .error .NoRootTypeError ↔ parserNoRoot d) ∧
    ((∃ n, extractGraph d = .error (.RootTypeNotFoundError n)) ↔
      rootNotFound d) ∧
    ((∃ g, extractGraph d = .ok g) ↔
      ¬lacksSchemaTypes d ∧ ¬parserNoRoot d ∧ ¬rootNotFound d) := by
  cases hp : parseIntrospection d with
  | error e =>
    have he : e = .InvalidInputError := parse_error_shape hp
    subst he
    have hex : extractGraph d = .error .InvalidInputError :=
      extract_eq_parse_error hp
    have hlacks : lacksSchemaTypes d := lacks_of_parse_error hp
    refine ⟨⟨fun _ => hlacks, fun _ => hex⟩, ?_, ?_, ?_⟩
    · constructor
      · intro hc
        rw [hex] at hc
        simp at hc
      · rintro ⟨p', hp', _⟩
        rw [hp] at hp'
        simp at hp'
    · constructor
      · rintro ⟨n, hc⟩
        rw [hex] at hc
        simp at hc
      · rintro ⟨p', qn, hp', _, _⟩
        rw [hp] at hp'
        simp at hp'
    · constructor
      · rintro ⟨g, hc⟩
        rw [hex] at hc
        simp at hc
      · rintro ⟨hnl, _, _⟩
        exact absurd hlacks hnl
  | ok p =>
    have hnl : ¬lacksSchemaTypes d := by
      intro hl
      have h2 := parse_error_of_lacks hl
      rw [hp] at h2
      simp at h2
    cases hq : p.queryTypeName with
    | none =>
      have hex := extract_eq_noroot hp hq
      have hnoroot : parserNoRoot d := ⟨p, hp, hq⟩
      refine ⟨?_, ⟨fun _ => hnoroot, fun _ => hex⟩, ?_, ?_⟩
      · constructor
        · intro hc
          rw [hex] at hc
          simp at hc
        · intro hl
          exact absurd hl hnl
      · constructor
        · rintro ⟨n, hc⟩
          rw [hex] at hc
          simp at hc
        · rintro ⟨p', qn, hp', hq', _⟩
          rw [hp] at hp'
          injection hp' with hpe
          subst hpe
          rw [hq] at hq'
          simp at hq'
      · constructor
        · rintro ⟨g, hc⟩
          rw [hex] at hc
          simp at hc
        · rintro ⟨_, hnr, _⟩
          exact absurd hnoroot hnr
    | some qn =>
      have hnnr : ¬parserNoRoot d := by
        rintro ⟨p', hp', hq'⟩
        rw [hp] at hp'
        injection hp' with hpe
        subst hpe
        rw [hq] at hq'
        simp at hq'
      cases hroot : jsMapGet (buildTypeMap p.types) qn with
      | none =>
        have hex := extract_eq_rootnotfound hp hq hroot
        have hrnf : rootNotFound d :=
          ⟨p, qn, hp, hq, (buildTypeMap_none_iff _ _).1 hroot⟩
        refine ⟨?_, ?_, ⟨fun _ => hrnf, fun _ => ⟨qn, hex⟩⟩, ?_⟩
        · constructor
          · intro hc
            rw [hex] at hc
            simp at hc
          · intro hl
            exact absurd hl hnl
        · constructor
          · intro hc
            rw [hex] at hc
            simp at hc
          · intro hl
            exact absurd hl hnnr
        · constructor
          · rintro ⟨g, hc⟩
            rw [hex] at hc
            simp at hc
          · rintro ⟨_, _, hnr⟩
            exact absurd hrnf hnr
      | some rootData =>
        obtain ⟨g, hex⟩ := extract_ok_exists d p qn rootData hp hq hroot
        have hnrnf : ¬rootNotFound d := by
          rintro ⟨p', qn', hp', hq', hall⟩
          rw [hp] at hp'
          injection hp' with hpe
          subst hpe
          rw [hq] at hq'
          injection hq' with hqe
          subst hqe
          have h2 := (buildTypeMap_none_iff p.types qn).2 hall
          rw [hroot] at h2
          simp at h2
        refine ⟨?_, ?_, ?_,
          ⟨fun _ => ⟨hnl, hnnr, hnrnf⟩, fun _ => ⟨g, hex⟩⟩⟩
        · constructor
          · intro hc
            rw [hex] at hc
            simp at hc
          · intro hl
            exact absurd hl hnl
        · constructor
          · intro hc
            rw [hex] at hc
            simp at hc
          · intro hl
            exact absurd hl hnnr
        · constructor
          · rintro ⟨n, hc⟩
            rw [hex] at hc
            simp at hc
          · intro hl
            exact absurd hl hnrnf

/-- Witness for C5 at the spec's three literal error scenarios and one
success scenario. -/
theorem claim_C5_witness :
    extractGraph docMissingTypes = .error .InvalidInputError ∧
    extractGraph docNullQueryType = .error .NoRootTypeError ∧
    (∃ n, extractGraph docRootMissing = .error (.RootTypeNotFoundError n)) ∧
    (∃ g, extractGraph scenarioDocWithID = .ok g) := by
  refine ⟨(claim_C5_errors docMissingTypes).1.mpr ?_,
    (claim_C5_errors docNullQueryType).2.1.mpr ?_,
    (claim_C5_errors docRootMissing).2.2.1.mpr ?_,
    (claim_C5_errors scenarioDocWithID).2.2.2.mpr ?_⟩
  · exact Or.inr ⟨_, rfl, rfl⟩
  · exact ⟨_, rfl, rfl⟩
  · exact ⟨_, "Query", rfl, rfl, by decide⟩
  · refine ⟨?_, ?_, ?_⟩
    · rintro (hcontra | ⟨s, hs, hts⟩)
      · exact absurd hcontra (by decide)
      · rw [show scenarioDocWithID.schema =
            some (⟨some ⟨"Query"⟩, some [scenarioQuery, scenarioDevice,
              scenarioCable, scenarioID]⟩ : IntrospectionSchema) from rfl] at hs
        injection hs with hse
        rw [← hse] at hts
        simp at hts
    · rintro ⟨p', hp', hq'⟩
      have hpe : p' = { types := [scenarioQuery, scenarioDevice,
          scenarioCable, scenarioID], queryTypeName := some "Query" } := by
        have hknown : parseIntrospection scenarioDocWithID =
            .ok { types := [scenarioQuery, scenarioDevice, scenarioCable,
              scenarioID], queryTypeName := some "Query" } := by decide
        rw [hknown] at hp'
        injection hp' with h2
        exact h2.symm
      rw [hpe] at hq'
      simp at hq'
    · rintro ⟨p', qn', hp', hq', hall⟩
      have hknown : parseIntrospection scenarioDocWithID =
          .ok { types := [scenarioQuery, scenarioDevice, scenarioCable,
            scenarioID], queryTypeName := some "Query" } := by decide
      rw [hknown] at hp'
      injection hp' with h2
      subst h2
      simp only at hq'
      injection hq' with hqe
      subst hqe
      exact hall scenarioQuery (by decide) (by decide)

/-- C6: the parser removes every type record whose name starts with the
double-underscore meta-prefix (and keeps every other record), returns
`none` for the query-type name — without error — when the schema
declares no query type, and consequently no node name of any extracted
graph ever starts with the meta-prefix. -/
theorem claim_C6_meta_filter :
    (∀ d p, parseIntrospection d = .ok p →
      ∀ t ∈ p.types, strStartsWith t.name "__" = false) ∧
    (∀ (d : IntrospectionDoc) s ts, d.schema = some s → s.types = some ts →
      ∀ t ∈ ts, strStartsWith t.name "__" = false →
        ∃ p, parseIntrospection d = .ok p ∧ t ∈ p.types) ∧
    (∀ (d : IntrospectionDoc) s ts, d.schema = some s → s.types = some ts →
      s.queryType = none →
      ∃ p, parseIntrospection d = .ok p ∧ p.queryTypeName = none) ∧
    (∀ d g, extractGraph d = .ok g →
      ∀ k ∈ g.nodes.map Prod.fst, strStartsWith k "__" = false) := by
  refine ⟨?_, ?_, ?_, ?_⟩
  · intro d p hp t ht
    have hmem : t ∈ parsedTypesOf d := by
      rw [parsedTypesOf, hp]
      exact ht
    exact parsedTypesOf_no_meta d t hmem
  · intro d s ts hs hts t ht hmeta
    refine ⟨_, parse_ok_shape hs hts, ?_⟩
    exact List.mem_filter.2 ⟨ht, by simp [hmeta]⟩
  · intro d s ts hs hts hqt
    refine ⟨_, parse_ok_shape hs hts, ?_⟩
    show (match s.queryType with
      | none => none
      | some q => if q.name = "" then none else some q.name) = none
    rw [hqt]
  · intro d g h k hk
    rcases List.mem_map.1 hk with ⟨p, hp, hpe⟩
    obtain ⟨r, hr, _⟩ := extract_ok_from_tm d g h p hp
    have hpair := buildTypeMap_pair _ (jsMapGet_mem hr)
    have := parsedTypesOf_no_meta d r hpair.2
    rw [hpair.1, hpe] at this
    exact this

/-- Witness for C6: the parser removes `__Schema` from `metaDoc` (the
remaining records are meta-free) and the scenario graph's keys are
meta-free. -/
theorem claim_C6_witness :
    (∀ t ∈ metaParsed.types, strStartsWith t.name "__" = false) ∧
    (∀ k ∈ scenarioGraphWithID.nodes.map Prod.fst,
      strStartsWith k "__" = false) :=
  ⟨claim_C6_meta_filter.1 metaDoc metaParsed (by decide),
   claim_C6_meta_filter.2.2.2 scenarioDocWithID scenarioGraphWithID
     (by decide)⟩

/-- C7, as stated, is false on the code: the claim says `Unknown` is
substituted exactly when resolution yields null, but the JS `||`
default also replaces an empty-string resolved name.  At the record
`emptyNameRecord` — one field whose declared type is a leaf named `""`
— resolution yields `some ""` and the node still carries `Unknown`. -/
theorem claim_C7_counterexample :
    (createTypeNode emptyNameRecord).fields ≠ claimedFields emptyNameRecord ∧
    unwrapTypeRef (TypeRef.leaf .SCALAR (some "")) = some "" ∧
    (createTypeNode emptyNameRecord).fields =
      some [{ name := "f", typeName := "Unknown", description := none }] :=
  ⟨by decide, rfl, by decide⟩

/-- C7 (amended): normalization computes `isComposite` iff the kind is
OBJECT, INTERFACE or UNION; `isRelay` iff the name ends with
`Connection` or `Edge` or equals `PageInfo`; `isBuiltIn` iff the name
starts with the meta-prefix or is one of the five built-in scalar
names; the field entries carry the resolved base type name with
`Unknown` substituted when resolution yields null **or the empty
string**; and the field sequence is absent (not empty) exactly when the
record declares zero fields or none at all. -/
theorem claim_C7_amended (t : IntrospectionType) :
    ((createTypeNode t).isComposite = true ↔
      (t.kind = .OBJECT ∨ t.kind = .INTERFACE ∨ t.kind = .UNION)) ∧
    ((createTypeNode t).isRelay = true ↔
      (strEndsWith t.name "Connection" = true ∨
        strEndsWith t.name "Edge" = true ∨ t.name = "PageInfo")) ∧
    ((createTypeNode t).isBuiltIn = true ↔
      (strStartsWith t.name "__" = true ∨ t.name ∈ BUILT_IN_SCALARS)) ∧
    (createTypeNode t).fields = amendedFields t ∧
    ((createTypeNode t).fields = none ↔
      (t.fields = none ∨ t.fields = some [])) := by
  refine ⟨?_, ?_, ?_, ?_, ?_⟩
  · show (decide (t.kind = TypeKind.OBJECT) ||
      decide (t.kind = TypeKind.INTERFACE) ||
      decide (t.kind = TypeKind.UNION)) = true ↔ _
    simp [Bool.or_eq_true, decide_eq_true_eq, or_assoc]
  · show (strEndsWith t.name "Connection" || strEndsWith t.name "Edge" ||
      decide (t.name = "PageInfo")) = true ↔ _
    simp [Bool.or_eq_true, decide_eq_true_eq, or_assoc]
  · show (strStartsWith t.name "__" ||
      BUILT_IN_SCALARS.contains t.name) = true ↔ _
    simp only [Bool.or_eq_true]
    constructor
    · rintro (hm | hm)
      · exact Or.inl hm
      · exact Or.inr (List.elem_iff.1 hm)
    · rintro (hm | hm)
      · exact Or.inl hm
      · exact Or.inr (List.elem_iff.2 hm)
  · rfl
  · show extractFields t = none ↔ _
    cases hf : t.fields with
    | none => simp [extractFields, hf]
    | some fs =>
      cases fs with
      | nil => simp [extractFields, hf]
      | cons f fs => simp [extractFields, hf]

/-- C8: unwrapping any chain of N LIST/NON_NULL wrapper layers around a
named leaf returns the leaf's name, independent of N; a null reference
yields null; and a wrapper whose wrapped reference is absent yields
null rather than raising. -/
theorem claim_C8_unwrap (ws : List TypeKind) (k : TypeKind) (nm : String)
    (hw : ∀ w ∈ ws, w = TypeKind.LIST ∨ w = TypeKind.NON_NULL)
    (hk : ¬(k = TypeKind.LIST ∨ k = TypeKind.NON_NULL)) :
    unwrapTypeRef (wrapChain ws (.leaf k (some nm))) = some nm ∧
    unwrapType none = none ∧
    (∀ (w : TypeKind) (n : Option String),
      (w = TypeKind.LIST ∨ w = TypeKind.NON_NULL) →
      unwrapTypeRef (.leaf w n) = none) := by
  refine ⟨?_, rfl, fun w n hwn => by simp only [unwrapTypeRef, if_pos hwn]⟩
  induction ws with
  | nil => simp only [wrapChain, unwrapTypeRef, if_neg hk]
  | cons w ws ih =>
    simp only [wrapChain, unwrapTypeRef,
      if_pos (hw w (List.mem_cons_self _ _))]
    exact ih (fun w' hw' => hw w' (List.mem_cons_of_mem _ hw'))

/-- Witness for C8 at a chain of seven mixed wrappers around the
`String` leaf. -/
theorem claim_C8_witness :
    unwrapTypeRef (wrapChain
      [.NON_NULL, .LIST, .NON_NULL, .NON_NULL, .LIST, .LIST, .NON_NULL]
      (.leaf .SCALAR (some "String"))) = some "String" :=
  (claim_C8_unwrap
    [.NON_NULL, .LIST, .NON_NULL, .NON_NULL, .LIST, .LIST, .NON_NULL]
    .SCALAR "String" (by intro w hw; fin_cases hw <;> simp)
    (by decide)).1

/-- C9, as stated, is false on the code: in the scenario without the
`ID` record the claim allows exactly the two FIELD edges
`(Query→DeviceType, "device")` and `(DeviceType→CableType, "cable")`,
but the extractor also emits the dangling `(DeviceType→ID, "id")` and
`(CableType→ID, "id")` edges — four edges, not two. -/
theorem claim_C9_counterexample :
    extractGraph scenarioDocNoID = .ok scenarioGraphNoID ∧
    scenarioGraphNoID.edges = scenarioEdges ∧
    scenarioEdges ≠
      [⟨"Query", "DeviceType", .FIELD, some "device"⟩,
       ⟨"DeviceType", "CableType", .FIELD, some "cable"⟩] :=
  ⟨by decide, by decide, by decide⟩

/-- C9 (amended): for the concrete scenario schema, extraction yields
exactly the nodes `Query`, `DeviceType`, `CableType` — plus the `ID`
node exactly when `ID` is present in the type list — and in both
variants exactly the four FIELD edges `(Query→DeviceType, "device")`,
`(DeviceType→ID, "id")`, `(DeviceType→CableType, "cable")`,
`(CableType→ID, "id")`: the edges into `ID` are emitted regardless of
whether `ID` is declared in the type list. -/
theorem claim_C9_amended :
    (extractGraph scenarioDocNoID).map
      (fun g => (g.nodes.map Prod.fst, g.edges)) =
      .ok (["Query", "DeviceType", "CableType"], scenarioEdges) ∧
    (extractGraph scenarioDocWithID).map
      (fun g => (g.nodes.map Prod.fst, g.edges)) =
      .ok (["Query", "DeviceType", "ID", "CableType"], scenarioEdges) :=
  ⟨by decide, by decide⟩

/-- C10: the unchecked node lookup after dequeue can never fail (the
panic outcome modelling it is unreachable); the visited set stays equal
to the node mapping's key list throughout the loop (it holds at every
`done` state whenever it holds initially); and in every returned graph
each edge's source is a key of the node mapping — only targets can
dangle. -/
theorem claim_C10_consistency :
    (∀ d, extractGraph d ≠ .error .PanicNodeMissing) ∧
    (∀ (fuel : Nat) (tm : List (String × IntrospectionType)) (st st' : St),
      st.visited = st.nodes.map Prod.fst → bfs fuel tm st = .done st' →
      st'.visited = st'.nodes.map Prod.fst) ∧
    (∀ d g, extractGraph d = .ok g →
      ∀ e ∈ g.edges, e.source ∈ g.nodes.map Prod.fst) := by
  refine ⟨fun d => (extract_no_artifact d).2, bfs_visited_eq, ?_⟩
  intro d g h e he
  rw [extract_ok_edges d g h] at he
  rcases List.mem_flatMap.1 he with ⟨p, hp, he'⟩
  rw [edgeListPair_source p.1 p.2 e he']
  exact List.mem_map_of_mem Prod.fst hp

/-- Witness for C10 at the scenario without the `ID` record: extraction
does not panic, and the source of the dangling edge is a key. -/
theorem claim_C10_witness :
    extractGraph scenarioDocNoID ≠ .error .PanicNodeMissing ∧
    "Query" ∈ scenarioGraphNoID.nodes.map Prod.fst :=
  ⟨claim_C10_consistency.1 scenarioDocNoID,
   claim_C10_consistency.2.2 scenarioDocNoID scenarioGraphNoID (by decide)
     ⟨"Query", "DeviceType", .FIELD, some "device"⟩ (by decide)⟩

end GraphVis
